import Mathlib

set_option maxHeartbeats 1000000

/-!
Verification of the ditto duplicate-file scanner core.

This file gives a shallow embedding of the scan pipeline of the ditto
repository — the walker directory queue (`internal/scan/walker.go`), the
size priority queue (`internal/scan/priority.go`), the size router and
hashing stages (`internal/scan/hasher.go`), the batched DB writer
(`internal/scan/writer.go`), the media type detector
(`internal/media/media.go`) and the store open routines
(`internal/db/db.go`) — and proves the testable properties stated in the
design document about these components.
-/

/-- A filesystem entry emitted by the walker
(`internal/scan/scan.go`, `FileInfo`): absolute path, size in bytes and
modification time in epoch seconds. -/
structure FileInfo where
  path : String
  size : Int
  mtime : Int
deriving DecidableEq

/-- A `FileInfo` paired with a hex hash string
(`internal/scan/scan.go`, `HashedFile`). -/
structure HashedFile extends FileInfo where
  hash : String
deriving DecidableEq

/- ───────────────────────── dirQueue (walker.go) ───────────────────────── -/

/-- Sequential view of the walker's unbounded directory queue
(`internal/scan/walker.go`, `dirQueue`): the backing storage `items` and the
index `head` of the next item to pop. -/
structure DirQueue where
  items : List String
  head : Nat
deriving DecidableEq

/-- `newDirQueue`: empty backing storage. -/
def newDirQueue : DirQueue := ⟨[], 0⟩

/-- `dirQueue.Push`: append the directory to the backing storage. -/
def DirQueue.push (q : DirQueue) (dir : String) : DirQueue :=
  ⟨q.items ++ [dir], q.head⟩

/-- `dirQueue.Pop`, sequential effect on a non-empty queue: read
`items[head]`, blank the slot so the string can be collected, advance
`head`, and compact the backing storage — copy the live suffix to the front
and reset `head` — once at least 1000 items were consumed and the consumed
prefix has passed the midpoint.  Returns `none` when the queue is empty
(the closed-and-empty return path of `Pop`). -/
def DirQueue.pop (q : DirQueue) : Option (String × DirQueue) :=
  if h : q.head < q.items.length then
    if 1000 ≤ q.head + 1 ∧ (q.items.set q.head "").length / 2 ≤ q.head + 1 then
      some (q.items.get ⟨q.head, h⟩,
            ⟨(q.items.set q.head "").drop (q.head + 1), 0⟩)
    else
      some (q.items.get ⟨q.head, h⟩, ⟨q.items.set q.head "", q.head + 1⟩)
  else
    none

/-- The live (not yet consumed) contents of the queue. -/
def DirQueue.toList (q : DirQueue) : List String := q.items.drop q.head

/-- Pop repeatedly, at most `fuel` times, until the queue reports empty. -/
def DirQueue.drain : Nat → DirQueue → List String
  | 0, _ => []
  | fuel + 1, q =>
    match q.pop with
    | none => []
    | some (x, q1) => x :: DirQueue.drain fuel q1

/-- Push every path of `ps`, in order. -/
def pushAll (q : DirQueue) (ps : List String) : DirQueue :=
  ps.foldl DirQueue.push q

/- ─────────────────────── read pool (db.go) ─────────────────────── -/

/-- The observable configuration `OpenReadPool` gives the read pool:
the driver name and DSN passed to `sql.Open`, the pool size, and the
statements executed on the pool after open. -/
structure ReadPool where
  driver : String
  dsn : String
  maxOpenConns : Nat
  runtimePragmas : List String
deriving DecidableEq

/-- `internal/db/db.go`, `OpenReadPool`: opens `sql.Open("sqlite", path)`
with the raw database path as connection string, sets the pool size, then
executes the PRAGMA list — including `query_only` — as runtime statements
on the pool. -/
def OpenReadPool (path : String) (maxConns : Nat) : ReadPool :=
  { driver := "sqlite"
    dsn := path
    maxOpenConns := maxConns
    runtimePragmas :=
      [ "PRAGMA journal_mode = WAL"
      , "PRAGMA query_only = ON"
      , "PRAGMA busy_timeout = 5000"
      , "PRAGMA synchronous = NORMAL"
      , "PRAGMA cache_size = -131072" ] }

/-- `bs` occurs at the start of `l`. -/
def charsLead : List Char → List Char → Bool
  | [], _ => true
  | _ :: _, [] => false
  | a :: as, b :: bs => a == b && charsLead as bs

/-- `pat` occurs as a contiguous substring of `s`. -/
def strContainsSub (s pat : String) : Bool :=
  s.data.tails.any (fun t => charsLead pat.data t)

/-- Modelled from the spec: a SQLite connection string embeds a read-only
setting when it carries a read-only parameter such as `query_only`,
`mode=ro` or `immutable` (the spec requires the read-only mode to be part
of the connection string handed to `sql.Open`). -/
def dsnEmbedsReadOnly (dsn : String) : Bool :=
  strContainsSub dsn "query_only" || strContainsSub dsn "mode=ro" ||
    strContainsSub dsn "immutable"

/- ─────────────── size router and hashing (hasher.go) ─────────────── -/

/-- `partialHashBytes = 64 * 1024` (`internal/scan/hasher.go`). -/
def partialHashBytes : Nat := 64 * 1024

/-- `hashPartial` modelled over the file's content bytes: the digest (an
abstract function `H` standing for hex-encoded SHA-256) of the first
`partialHashBytes` bytes; `io.CopyN` tolerates files shorter than the
limit, so the read is `content.take partialHashBytes`. -/
def hashPartialDigest (H : List Nat → String) (content : List Nat) : String :=
  H (content.take partialHashBytes)

/-- `hashFull` modelled over the file's content bytes: the digest of the
whole content. -/
def hashFullDigest (H : List Nat → String) (content : List Nat) : String :=
  H content

/-- `RunSizeRouter` (`internal/scan/hasher.go`): split the stream into the
small lane (`Size ≤ partialHashBytes`, bypasses the full hasher and goes to
the final merge) and the large lane (forwarded to the full hasher). -/
def runSizeRouter : List HashedFile → List HashedFile × List HashedFile
  | [] => ([], [])
  | hf :: rest =>
    let r := runSizeRouter rest
    if hf.size ≤ (partialHashBytes : Int) then (hf :: r.1, r.2)
    else (r.1, hf :: r.2)

/- ───────────────── media type detection (media.go) ───────────────── -/

/-- Helper for `fileExt`: walk the reversed character list of the path,
accumulating the characters after the final dot; stop with the extension on
the dot, or with `""` on a path separator or when the list is exhausted
(mirrors `filepath.Ext`). -/
def extFromRev : List Char → List Char → String
  | [], _ => ""
  | c :: rest, acc =>
    if c = '/' then ""
    else if c = '.' then String.mk ('.' :: acc)
    else extFromRev rest (c :: acc)

/-- `filepath.Ext`: the suffix beginning at the final dot in the final
slash-separated element of the path; empty if there is no dot. -/
def fileExt (p : String) : String := extFromRev p.data.reverse []

/-- `strings.ToLower` (per-character lowering, as Go lowers each rune). -/
def toLowerStr (s : String) : String := String.mk (s.data.map Char.toLower)

/-- Image extensions (`internal/media/media.go`, `imageExts`). -/
def imageExts : List String :=
  [".jpg", ".jpeg", ".png", ".gif", ".bmp", ".webp", ".tiff", ".tif",
   ".heic", ".heif", ".avif"]

/-- Video extensions (`internal/media/media.go`, `videoExts`). -/
def videoExts : List String :=
  [".mp4", ".mov", ".avi", ".mkv", ".wmv", ".flv", ".webm", ".m4v"]

/-- Document extensions (`internal/media/media.go`, `documentExts`). -/
def documentExts : List String :=
  [".pdf", ".doc", ".docx", ".xls", ".xlsx", ".ppt", ".pptx", ".txt",
   ".odt", ".ods", ".odp"]

/-- `media.Detect`: classify by lower-cased extension. -/
def Detect (path : String) : String :=
  let ext := toLowerStr (fileExt path)
  if imageExts.contains ext then "image"
  else if videoExts.contains ext then "video"
  else if documentExts.contains ext then "document"
  else "other"

/- ───────────────── store tables touched by the writer ───────────────── -/

/-- A row of `duplicate_groups` (`migrations/001_initial.sql`,
`002_group_actions.sql`).  Column defaults: `file_count` 0,
`reclaimable_bytes` 0, `status` `'unresolved'`, `ignored_at`/`resolved_at`
NULL. -/
structure GroupRow where
  id : Nat
  contentHash : String
  fileSize : Int
  fileType : String
  fileCount : Int
  reclaimableBytes : Int
  status : String
  ignoredAt : Option Int
  resolvedAt : Option Int
  firstSeenScanId : Option Int
  lastSeenScanId : Option Int
  createdAt : Int
  updatedAt : Int
deriving DecidableEq

/-- A row of `duplicate_files`. -/
structure FileRow where
  groupId : Nat
  scanId : Int
  path : String
  size : Int
  mtime : Int
  fileType : String
deriving DecidableEq

/-- The two tables the group-persist phase mutates, plus the AUTOINCREMENT
cursor for `duplicate_groups.id`. -/
structure DBState where
  groups : List GroupRow
  files : List FileRow
  nextGroupId : Nat
deriving DecidableEq

def emptyDB : DBState := ⟨[], [], 1⟩

/-- `SELECT ... FROM duplicate_groups WHERE content_hash = ?`
(`content_hash` is UNIQUE). -/
def findByHash (rows : List GroupRow) (hash : String) : Option GroupRow :=
  rows.find? (fun r => r.contentHash == hash)

/-- The `INSERT OR IGNORE INTO duplicate_groups` statement of
`writeGroupBatch`: inserts a fresh row — with column defaults for the
columns the statement does not mention — unless a row with this
content hash already exists. -/
def insertOrIgnoreGroup (db : DBState) (hash : String) (fileSize : Int)
    (fileType : String) (scanID : Int) (now : Int) : DBState :=
  match findByHash db.groups hash with
  | some _ => db
  | none =>
    { db with
      groups := db.groups ++
        [{ id := db.nextGroupId, contentHash := hash, fileSize := fileSize,
           fileType := fileType, fileCount := 0, reclaimableBytes := 0,
           status := "unresolved", ignoredAt := none, resolvedAt := none,
           firstSeenScanId := some scanID, lastSeenScanId := some scanID,
           createdAt := now, updatedAt := now }]
      nextGroupId := db.nextGroupId + 1 }

/-- `SELECT id FROM duplicate_groups WHERE content_hash = ?`. -/
def lookupGroupId (db : DBState) (hash : String) : Option Nat :=
  (findByHash db.groups hash).map (fun r => r.id)

/-- `DELETE FROM duplicate_files WHERE group_id = ?`. -/
def deleteFilesForGroup (db : DBState) (gid : Nat) : DBState :=
  { db with files := db.files.filter (fun f => f.groupId != gid) }

/-- The per-member `INSERT INTO duplicate_files` loop of `writeGroupInTx`:
each member row's `file_type` is computed from that member's own path. -/
def insertFileRows (db : DBState) (gid : Nat) (scanID : Int)
    (files : List HashedFile) : DBState :=
  { db with
    files := db.files ++ files.map (fun f =>
      { groupId := gid, scanId := scanID, path := f.path, size := f.size,
        mtime := f.mtime, fileType := Detect f.path }) }

/-- The `UPDATE duplicate_groups SET file_count = ?, reclaimable_bytes = ?,
file_type = ?, last_seen_scan_id = ?, updated_at = ? WHERE id = ?`
statement: touches exactly those five columns of the row with this id. -/
def updateGroupAggregates (db : DBState) (gid : Nat) (count : Int)
    (reclaimable : Int) (ftype : String) (scanID : Int) (now : Int) : DBState :=
  { db with
    groups := db.groups.map (fun r =>
      if r.id == gid then
        { r with fileCount := count, reclaimableBytes := reclaimable,
                 fileType := ftype, lastSeenScanId := some scanID,
                 updatedAt := now }
      else r) }

/-- `writeGroupInTx` (`internal/scan/writer.go`): insert-if-absent the group
row, look up its id, wholesale-replace the group's `duplicate_files` rows,
then update the aggregate columns.  The group's declared type is
`media.Detect` of the first file's path; `reclaimable = fileSize * (len-1)`.
The `[]` branch is unreachable: `persistGroups` only passes groups with at
least 2 files (the Go code indexes `files[0]`). -/
def writeGroupInTx (db : DBState) (scanID : Int) (hash : String)
    (files : List HashedFile) (now : Int) : DBState :=
  match files with
  | [] => db
  | f0 :: _ =>
    let fileSize := f0.size
    let fileType := Detect f0.path
    let db1 := insertOrIgnoreGroup db hash fileSize fileType scanID now
    match lookupGroupId db1 hash with
    | none => db1
    | some gid =>
      let db2 := deleteFilesForGroup db1 gid
      let db3 := insertFileRows db2 gid scanID files
      updateGroupAggregates db3 gid (files.length : Int)
        (fileSize * ((files.length : Int) - 1)) fileType scanID now

/-- `WriteStats` (`internal/scan/writer.go`). -/
structure WriteStats where
  duplicateGroups : Int
  duplicateFiles : Int
  reclaimableBytes : Int
  filesHashed : Int
deriving DecidableEq

/-- `persistGroups` (`internal/scan/writer.go`): keep only hashes with ≥ 2
files and write them group by group.  The transaction batching
(`groupBatchSize` groups per commit) does not change the final table state
of an error-free run, so the model folds over the groups directly. -/
def persistGroups (db : DBState) (scanID : Int)
    (groups : List (String × List HashedFile)) (now : Int) :
    DBState × WriteStats :=
  let dupGroups := groups.filter (fun p => 2 ≤ p.2.length)
  let db1 := dupGroups.foldl (fun d p => writeGroupInTx d scanID p.1 p.2 now) db
  let stats : WriteStats :=
    { duplicateGroups := (dupGroups.length : Int)
      duplicateFiles := dupGroups.foldl (fun a p => a + (p.2.length : Int)) 0
      reclaimableBytes := dupGroups.foldl (fun a p =>
        a + (match p.2 with
             | [] => 0
             | f0 :: _ => f0.size * ((p.2.length : Int) - 1))) 0
      filesHashed := groups.foldl (fun a p => a + (p.2.length : Int)) 0 }
  (db1, stats)

/- ───────────────────── DB writer phase 1 (writer.go) ───────────────────── -/

/-- The terminal error of a cancelled scan context. -/
inductive WriterErr
  | cancelled
deriving DecidableEq

/-- A Go context as the writer observes it: either `context.Background()`
(never cancelled) or the scan context, which may be cancelled. -/
inductive Ctx
  | background
  | scanCtx (cancelled : Bool)
deriving DecidableEq

/-- `ctx.Err()`. -/
def Ctx.err : Ctx → Option WriterErr
  | .background => none
  | .scanCtx c => if c then some .cancelled else none

/-- One executed cache batch upsert: the context it ran under and the files
it wrote. -/
structure CacheFlush where
  flushCtx : Ctx
  files : List HashedFile
deriving DecidableEq

/-- The writer's phase-1 state: the hash → files accumulator, the rolling
cache buffer, and the flushes performed so far. -/
structure Phase1State where
  groups : List (String × List HashedFile)
  cacheBuf : List HashedFile
  flushes : List CacheFlush
deriving DecidableEq

/-- `groups[hf.Hash] = append(groups[hf.Hash], hf)` on an association list. -/
def groupsInsert (gs : List (String × List HashedFile)) (hf : HashedFile) :
    List (String × List HashedFile) :=
  if gs.any (fun p => p.1 == hf.hash) then
    gs.map (fun p => if p.1 == hf.hash then (p.1, p.2 ++ [hf]) else p)
  else gs ++ [(hf.hash, [hf])]

/-- `flushCache` (`RunDBWriter`): no-op on an empty buffer; otherwise batch
upsert the buffer into `file_cache` using `context.Background()` — so the
write survives scan-context cancellation — and clear the buffer. -/
def flushCacheStep (st : Phase1State) : Phase1State :=
  if st.cacheBuf.isEmpty then st
  else { st with flushes := st.flushes ++ [⟨Ctx.background, st.cacheBuf⟩],
                 cacheBuf := [] }

/-- One iteration of `RunDBWriter`'s receive loop: accumulate into the
groups map and the cache buffer, and flush when the buffer has reached
`batchSize`. -/
def phase1Step (batchSize : Nat) (st : Phase1State) (hf : HashedFile) :
    Phase1State :=
  let st1 := { st with groups := groupsInsert st.groups hf,
                       cacheBuf := st.cacheBuf ++ [hf] }
  if batchSize ≤ st1.cacheBuf.length then flushCacheStep st1 else st1

/-- The whole receive loop of `RunDBWriter`, run to input-channel close. -/
def runPhase1 (batchSize : Nat) (input : List HashedFile) : Phase1State :=
  input.foldl (phase1Step batchSize) ⟨[], [], []⟩

/-- What a complete run of `RunDBWriter` did: the cache flushes it executed
(in order), the duplicate-group tables it left behind, and its return
value. -/
structure WriterOutcome where
  flushes : List CacheFlush
  db : DBState
  result : Except WriterErr WriteStats

/-- `RunDBWriter` (`internal/scan/writer.go`): drain the input, flushing
the cache buffer at every `batchSize` items and once more — regardless of
cancellation — after the channel closes; then check `ctx.Err()`: on
cancellation return the error without touching the duplicate-group tables,
otherwise run `persistGroups`. -/
def RunDBWriter (ctx : Ctx) (db : DBState) (scanID : Int) (batchSize : Nat)
    (input : List HashedFile) (now : Int) : WriterOutcome :=
  let st := flushCacheStep (runPhase1 batchSize input)
  match ctx.err with
  | some e => ⟨st.flushes, db, Except.error e⟩
  | none =>
    let r := persistGroups db scanID st.groups now
    ⟨st.flushes, r.1, Except.ok r.2⟩

/- ───────────── walker queue protocol as a transition system ───────────── -/

/-- Counter view of the walker's shared state: the `pending` counter
(`int64`), the number of `queued` directory paths, the number of popped
directories whose `Done` has not yet run (`inflight`), the number of
`pending` increments whose matching `Push` has not yet run (`preInc`), and
the `closed` flag. -/
structure QState where
  pending : Int
  queued : Nat
  inflight : Nat
  preInc : Nat
  closed : Bool
deriving DecidableEq

/-- `Walk`'s seeding loop: one increment-then-push per root before any
worker starts. -/
def initQ (roots : Nat) : QState := ⟨(roots : Int), roots, 0, 0, false⟩

/-- The atomic events of the walker protocol.  An increment
(`q.pending.Add(1)`) and the following `Push` are separate events; both are
performed only by a worker that is processing a popped directory
(`inflight ≥ 1`).  `Done` decrements `pending`, and closes the queue when
the decrement observes zero. -/
inductive QStep : QState → QState → Prop
  | inc (s : QState) (h : 1 ≤ s.inflight) :
      QStep s { s with pending := s.pending + 1, preInc := s.preInc + 1 }
  | push (s : QState) (h : 1 ≤ s.preInc) :
      QStep s { s with preInc := s.preInc - 1, queued := s.queued + 1 }
  | pop (s : QState) (h : 1 ≤ s.queued) :
      QStep s { s with queued := s.queued - 1, inflight := s.inflight + 1 }
  | done (s : QState) (h : 1 ≤ s.inflight) :
      QStep s { s with
        pending := s.pending - 1
        inflight := s.inflight - 1
        closed := s.closed || decide (s.pending - 1 = 0) }

/-- Reachability of the walker-queue protocol. -/
inductive QReach (s0 : QState) : QState → Prop
  | refl : QReach s0 s0
  | tail (s t : QState) : QReach s0 s → QStep s t → QReach s0 t

/-- What a call to `Pop` observes in a given state: an item when one is
queued, the closed signal when the queue is closed and empty, otherwise the
`cond.Wait()` loop — `Pop` watches only `items` and `closed`, never a
cancellation signal. -/
inductive PopOutcome
  | item
  | closedSignal
  | blocked
deriving DecidableEq

/-- The branch `Pop` takes in a given queue state. -/
def popObserve (s : QState) : PopOutcome :=
  if 1 ≤ s.queued then PopOutcome.item
  else if s.closed then PopOutcome.closedSignal
  else PopOutcome.blocked

/- ───────────── Walk with worker automata (walker.go, Walk) ───────────── -/

/-- A `walkerWorker`'s position in its loop: at the pre-`Pop` cancellation
check, blocked inside `Pop`, processing a popped directory, or returned. -/
inductive WPC
  | atCheck
  | blockedInPop
  | processing
  | exited
deriving DecidableEq

/-- The whole `Walk` call: the shared queue state, one program counter per
worker goroutine, and the scan context's cancellation flag. -/
structure WalkSys where
  q : QState
  workers : List WPC
  cancelled : Bool
deriving DecidableEq

/-- `Walk` after seeding `roots` directories, with `nw` workers started at
their first cancellation check and the context not yet cancelled. -/
def sysInit (roots nw : Nat) : WalkSys :=
  ⟨initQ roots, List.replicate nw WPC.atCheck, false⟩

/-- Interleaved small-step semantics of `Walk`:
* `cancel` — the manager cancels the scan context;
* `checkExit` — a worker at its pre-`Pop` check observes cancellation and
  returns;
* `enterPopBlocked` — a worker passes the check, calls `Pop`, finds the
  queue empty and not closed, and waits on the condition variable;
* `enterPopClosedExit` / `popClosedExit` — `Pop` returns the closed signal
  (queue closed and empty) and the worker returns;
* `popTake` / `popWake` — `Pop` hands the worker a queued directory;
* `procInc`, `procPush` — the processing worker pushes a subdirectory,
  incrementing `pending` first;
* `procDone` — the worker calls `Done` and loops back to its check. -/
inductive WalkStep : WalkSys → WalkSys → Prop
  | cancel (s : WalkSys) : WalkStep s { s with cancelled := true }
  | checkExit (s : WalkSys) (i : Nat)
      (h : s.workers[i]? = some WPC.atCheck) (hc : s.cancelled = true) :
      WalkStep s { s with workers := s.workers.set i WPC.exited }
  | enterPopBlocked (s : WalkSys) (i : Nat)
      (h : s.workers[i]? = some WPC.atCheck) (hc : s.cancelled = false)
      (hq : s.q.queued = 0) (hcl : s.q.closed = false) :
      WalkStep s { s with workers := s.workers.set i WPC.blockedInPop }
  | enterPopClosedExit (s : WalkSys) (i : Nat)
      (h : s.workers[i]? = some WPC.atCheck) (hc : s.cancelled = false)
      (hq : s.q.queued = 0) (hcl : s.q.closed = true) :
      WalkStep s { s with workers := s.workers.set i WPC.exited }
  | popClosedExit (s : WalkSys) (i : Nat)
      (h : s.workers[i]? = some WPC.blockedInPop)
      (hq : s.q.queued = 0) (hcl : s.q.closed = true) :
      WalkStep s { s with workers := s.workers.set i WPC.exited }
  | popTake (s : WalkSys) (i : Nat)
      (h : s.workers[i]? = some WPC.atCheck) (hc : s.cancelled = false)
      (hq : 1 ≤ s.q.queued) :
      WalkStep s { s with
        q := { s.q with queued := s.q.queued - 1,
                        inflight := s.q.inflight + 1 },
        workers := s.workers.set i WPC.processing }
  | popWake (s : WalkSys) (i : Nat)
      (h : s.workers[i]? = some WPC.blockedInPop) (hq : 1 ≤ s.q.queued) :
      WalkStep s { s with
        q := { s.q with queued := s.q.queued - 1,
                        inflight := s.q.inflight + 1 },
        workers := s.workers.set i WPC.processing }
  | procInc (s : WalkSys) (i : Nat)
      (h : s.workers[i]? = some WPC.processing) :
      WalkStep s { s with
        q := { s.q with pending := s.q.pending + 1,
                        preInc := s.q.preInc + 1 } }
  | procPush (s : WalkSys) (i : Nat)
      (h : s.workers[i]? = some WPC.processing) (hp : 1 ≤ s.q.preInc) :
      WalkStep s { s with
        q := { s.q with preInc := s.q.preInc - 1,
                        queued := s.q.queued + 1 } }
  | procDone (s : WalkSys) (i : Nat)
      (h : s.workers[i]? = some WPC.processing) :
      WalkStep s { s with
        q := { s.q with pending := s.q.pending - 1,
                        inflight := s.q.inflight - 1,
                        closed := s.q.closed || decide (s.q.pending - 1 = 0) },
        workers := s.workers.set i WPC.atCheck }

/-- Reachability of the `Walk` system. -/
inductive WalkReach (s0 : WalkSys) : WalkSys → Prop
  | refl : WalkReach s0 s0
  | tail (s t : WalkSys) : WalkReach s0 s → WalkStep s t → WalkReach s0 t

/-- `Walk` returns exactly when `wg.Wait()` does, i.e. when every worker
has exited. -/
def allExited (s : WalkSys) : Prop := ∀ w ∈ s.workers, w = WPC.exited

/- ───────────── size priority queue as a transition system ───────────── -/

/-- `RunSizePriorityQueue`'s state: the FIFO input channel contents, the
heap contents (as an unordered list — delivery always takes a size-minimal
element, which is what the binary heap's root is), and the output emitted
so far. -/
structure PQState where
  input : List HashedFile
  heap : List HashedFile
  out : List HashedFile

def pqInit (xs : List HashedFile) : PQState := ⟨xs, [], []⟩

/-- The two events of `RunSizePriorityQueue`'s select loop (absent
cancellation): accept the next input item into the heap, or deliver a
size-minimal heap element downstream.  The code races the two whenever the
heap is non-empty and drains the heap smallest-first once the input
closes. -/
inductive PQStep : PQState → PQState → Prop
  | recv (s : PQState) (x : HashedFile) (rest : List HashedFile)
      (h : s.input = x :: rest) :
      PQStep s ⟨rest, x :: s.heap, s.out⟩
  | deliver (s : PQState) (m : HashedFile) (hm : m ∈ s.heap)
      (hmin : ∀ y ∈ s.heap, m.size ≤ y.size) :
      PQStep s ⟨s.input, s.heap.erase m, s.out ++ [m]⟩

/-- Reachability of the priority-queue stage. -/
inductive PQReach (s0 : PQState) : PQState → Prop
  | refl : PQReach s0 s0
  | tail (s t : PQState) : PQReach s0 s → PQStep s t → PQReach s0 t

/-- Well-formedness of the groups table: distinct row ids, distinct content
hashes (the UNIQUE constraint on `content_hash`), and every id below the
AUTOINCREMENT cursor. -/
def WFdb (db : DBState) : Prop :=
  (db.groups.map GroupRow.id).Nodup ∧
  (db.groups.map GroupRow.contentHash).Nodup ∧
  ∀ r ∈ db.groups, r.id < db.nextGroupId

/- ───────────── concrete sample values used by witnesses ───────────── -/

/-- A 5-byte file with a `.jpg` extension. -/
def jpgSample : HashedFile := ⟨⟨"/t/a.jpg", 5, 0⟩, "hh"⟩

/-- A 5-byte file with a `.pdf` extension and the same content hash. -/
def pdfSample : HashedFile := ⟨⟨"/t/b.pdf", 5, 0⟩, "hh"⟩

/-- First scan's view of a 10-byte file. -/
def sizedSampleA : HashedFile := ⟨⟨"/t/x1.bin", 10, 0⟩, "hs"⟩

/-- First scan's view of its 10-byte duplicate. -/
def sizedSampleB : HashedFile := ⟨⟨"/t/x2.bin", 10, 0⟩, "hs"⟩

/-- Second scan's view of the same path: the walk-time stat raced a
concurrent modification and recorded size 20, while the hashed content is
unchanged. -/
def sizedSampleA2 : HashedFile := ⟨⟨"/t/x1.bin", 20, 9⟩, "hs"⟩

/-- Second scan's view of the duplicate, likewise stat-raced to size 20. -/
def sizedSampleB2 : HashedFile := ⟨⟨"/t/x2.bin", 20, 9⟩, "hs"⟩

/-- A group row left behind by an earlier scan, with user-owned state
(`status = "ignored"`, an `ignored_at` stamp). -/
def existingGroupRow : GroupRow :=
  { id := 1, contentHash := "hh", fileSize := 5, fileType := "other",
    fileCount := 2, reclaimableBytes := 5, status := "ignored",
    ignoredAt := some 3, resolvedAt := none, firstSeenScanId := some 1,
    lastSeenScanId := some 1, createdAt := 4, updatedAt := 4 }

/-- A store already holding that group row. -/
def dbWithGroup : DBState := ⟨[existingGroupRow], [], 2⟩

/-- Concrete digest function used by witnesses. -/
def witnessDigest (bytes : List Nat) : String := toString bytes.length

/-- A 42-byte file, below the prefix threshold. -/
def smallSample : HashedFile := ⟨⟨"/t/a.txt", 42, 0⟩, "ab"⟩

/-- A 100000-byte file, above the prefix threshold. -/
def largeSample : HashedFile := ⟨⟨"/t/b.bin", 100000, 0⟩, "cd"⟩

/-- Hashed-file samples for the writer witness. -/
def writerSampleA : HashedFile := ⟨⟨"/t/a.txt", 42, 10⟩, "h1"⟩

/-- Second sample, same content hash as the first. -/
def writerSampleB : HashedFile := ⟨⟨"/t/b.txt", 42, 11⟩, "h1"⟩

/-- Third sample, a distinct content hash. -/
def writerSampleC : HashedFile := ⟨⟨"/t/c.txt", 7, 12⟩, "h2"⟩

/- ═════════════════════════════ Theorems ═════════════════════════════ -/

/- ───────────── dirQueue: compaction preserves the contents ───────────── -/

/-- `Pop` on a non-empty queue returns `items[head]` and a queue whose live
contents are the remaining items — whether or not compaction fires. -/
theorem DirQueue.pop_nonempty (q : DirQueue) (h : q.head < q.items.length) :
    ∃ q1, q.pop = some (q.items.get ⟨q.head, h⟩, q1) ∧
      q1.toList = q.items.drop (q.head + 1) := by
  unfold DirQueue.pop
  rw [dif_pos h]
  by_cases hc : 1000 ≤ q.head + 1 ∧
      (q.items.set q.head "").length / 2 ≤ q.head + 1
  · rw [if_pos hc]
    refine ⟨_, rfl, ?_⟩
    show ((q.items.set q.head "").drop (q.head + 1)).drop 0 = _
    rw [List.drop_zero, List.drop_set_of_lt _ _ (Nat.lt_succ_self _)]
  · rw [if_neg hc]
    refine ⟨_, rfl, ?_⟩
    show (q.items.set q.head "").drop (q.head + 1) = _
    rw [List.drop_set_of_lt _ _ (Nat.lt_succ_self _)]

/-- `Pop` on an empty queue returns the closed/empty signal. -/
theorem DirQueue.pop_empty (q : DirQueue) (h : q.toList = []) : q.pop = none := by
  have hh : ¬ q.head < q.items.length := by
    intro hlt
    have := congrArg List.length h
    simp [DirQueue.toList] at this
    omega
  unfold DirQueue.pop
  rw [dif_neg hh]

/-- Draining with enough fuel returns exactly the live contents. -/
theorem DirQueue.drain_toList :
    ∀ (n : Nat) (q : DirQueue), q.toList.length ≤ n →
      DirQueue.drain n q = q.toList := by
  intro n
  induction n with
  | zero =>
    intro q hq
    have : q.toList = [] := List.eq_nil_of_length_eq_zero (Nat.le_zero.mp hq)
    simp [DirQueue.drain, this]
  | succ n ih =>
    intro q hq
    cases hl : q.toList with
    | nil =>
      unfold DirQueue.drain
      rw [DirQueue.pop_empty q hl]
    | cons x rest =>
      have h : q.head < q.items.length := by
        by_contra hcon
        push_neg at hcon
        have hnil : q.toList = [] := by
          simp [DirQueue.toList, List.drop_eq_nil_of_le hcon]
        rw [hnil] at hl
        cases hl
      obtain ⟨q1, hpop, htl⟩ := DirQueue.pop_nonempty q h
      have hdg := List.drop_eq_getElem_cons h
      have hl' : List.drop q.head q.items = x :: rest := hl
      rw [hl'] at hdg
      injection hdg with h1 h2
      have hget : q.items.get ⟨q.head, h⟩ = x := by
        rw [List.get_eq_getElem]
        exact h1.symm
      have hrest : q1.toList = rest := by rw [htl, ← h2]
      have hcons : q.toList = x :: rest := hl
      have hlen : rest.length ≤ n := by
        have hc := congrArg List.length hcons
        simp at hc
        omega
      unfold DirQueue.drain
      rw [hpop]
      show q.items.get ⟨q.head, h⟩ :: DirQueue.drain n q1 = x :: rest
      rw [hget, ih q1 (by rw [hrest]; exact hlen), hrest]

/-- Pushing appends to the live contents and preserves the head bound. -/
theorem DirQueue.toList_pushAll :
    ∀ (ps : List String) (q : DirQueue), q.head ≤ q.items.length →
      (pushAll q ps).toList = q.toList ++ ps ∧
      (pushAll q ps).head ≤ (pushAll q ps).items.length := by
  intro ps
  induction ps with
  | nil => intro q hwf; simpa [pushAll] using hwf
  | cons d rest ih =>
    intro q hwf
    have hstep : (q.push d).toList = q.toList ++ [d] := by
      simp only [DirQueue.push, DirQueue.toList]
      rw [List.drop_append_of_le_length hwf]
    have hwf' : (q.push d).head ≤ (q.push d).items.length := by
      simp only [DirQueue.push, List.length_append]
      omega
    have := ih (q.push d) hwf'
    refine ⟨?_, ?_⟩
    · rw [show pushAll q (d :: rest) = pushAll (q.push d) rest from rfl,
        this.1, hstep]
      simp
    · rw [show pushAll q (d :: rest) = pushAll (q.push d) rest from rfl]
      exact this.2

/-- C9: for every sequence of pushes into the walker's directory queue,
popping until the queue is empty yields exactly the pushed paths in order —
the mid-point compaction of the backing storage loses and duplicates
nothing. -/
theorem dirQueue_push_pop_exact (ps : List String) :
    DirQueue.drain ps.length (pushAll newDirQueue ps) = ps := by
  obtain ⟨h1, _⟩ := DirQueue.toList_pushAll ps newDirQueue (by simp [newDirQueue])
  have hps : (pushAll newDirQueue ps).toList = ps := by
    simpa [newDirQueue, DirQueue.toList] using h1
  rw [DirQueue.drain_toList ps.length _ (by rw [hps]), hps]

/- ───────────── read pool: read-only is a runtime pragma ───────────── -/

/-- C5 (code bug exhibit): `OpenReadPool` hands `sql.Open` the bare
database path — a connection string with no read-only setting — and only
afterwards issues `PRAGMA query_only = ON` as a runtime statement on the
pool, which reaches a single pooled connection rather than all of them. -/
theorem readPool_readonly_is_runtime_pragma :
    (OpenReadPool "/data/ditto.db" 4).dsn = "/data/ditto.db" ∧
    dsnEmbedsReadOnly (OpenReadPool "/data/ditto.db" 4).dsn = false ∧
    "PRAGMA query_only = ON" ∈ (OpenReadPool "/data/ditto.db" 4).runtimePragmas := by
  refine ⟨rfl, by decide, by decide⟩

/- ───────────── size router: small files skip the full hasher ───────────── -/

/-- C7: for a file whose content fits within the 64 KiB prefix, the prefix
digest reads the whole file, so the partial hash equals the full hash; and
the size router sends exactly the files with `Size ≤ partialHashBytes` to
the small lane (straight to the final merge) and the rest to the full-hash
lane. -/
theorem small_files_bypass_full_hasher (H : List Nat → String)
    (content : List Nat) (hsize : content.length ≤ partialHashBytes)
    (input : List HashedFile) :
    hashPartialDigest H content = hashFullDigest H content ∧
    (runSizeRouter input).1 =
      input.filter (fun hf => decide (hf.size ≤ (partialHashBytes : Int))) ∧
    (runSizeRouter input).2 =
      input.filter (fun hf => !decide (hf.size ≤ (partialHashBytes : Int))) := by
  refine ⟨?_, ?_⟩
  · unfold hashPartialDigest hashFullDigest
    rw [List.take_of_length_le hsize]
  · induction input with
    | nil => exact ⟨rfl, rfl⟩
    | cons hf rest ih =>
      simp only [runSizeRouter, List.filter_cons]
      by_cases hc : hf.size ≤ (partialHashBytes : Int)
      · simp [hc, ih.1, ih.2]
      · simp [hc, ih.1, ih.2]

/-- Witness for C7 at a 3-byte content and a two-file stream. -/
theorem small_files_bypass_full_hasher_witness :
    List.length [1, 2, 3] ≤ partialHashBytes ∧
    (hashPartialDigest witnessDigest [1, 2, 3] =
        hashFullDigest witnessDigest [1, 2, 3] ∧
      (runSizeRouter [smallSample, largeSample]).1 =
        List.filter (fun hf => decide (hf.size ≤ (partialHashBytes : Int)))
          [smallSample, largeSample] ∧
      (runSizeRouter [smallSample, largeSample]).2 =
        List.filter (fun hf => !decide (hf.size ≤ (partialHashBytes : Int)))
          [smallSample, largeSample]) :=
  ⟨by decide,
   small_files_bypass_full_hasher witnessDigest [1, 2, 3] (by decide)
     [smallSample, largeSample]⟩

/- ───────────── DB writer: progressive cache persistence ───────────── -/

/-- Invariant of the phase-1 receive loop: the flushed batches plus the
current buffer are exactly the received input; every executed flush ran
under the background context with exactly `batchSize` files; and the
buffer stays below the threshold. -/
theorem runPhase1_flush_inv (batchSize : Nat) (hb : 1 ≤ batchSize) :
    ∀ (input : List HashedFile) (st : Phase1State),
      st.cacheBuf.length < batchSize →
      (∀ f ∈ st.flushes, f.flushCtx = Ctx.background ∧
        f.files.length = batchSize) →
      (((input.foldl (phase1Step batchSize) st).flushes.map
          CacheFlush.files).flatten ++
        (input.foldl (phase1Step batchSize) st).cacheBuf =
        (st.flushes.map CacheFlush.files).flatten ++ st.cacheBuf ++ input) ∧
      (input.foldl (phase1Step batchSize) st).cacheBuf.length < batchSize ∧
      (∀ f ∈ (input.foldl (phase1Step batchSize) st).flushes,
        f.flushCtx = Ctx.background ∧ f.files.length = batchSize) := by
  intro input
  induction input with
  | nil => intro st h1 h2; exact ⟨by simp, h1, h2⟩
  | cons hf rest ih =>
    intro st h1 h2
    rw [List.foldl_cons]
    by_cases hc : batchSize ≤ (st.cacheBuf ++ [hf]).length
    · have hlen : (st.cacheBuf ++ [hf]).length = batchSize := by
        simp at hc ⊢
        omega
      have hne : ¬ (st.cacheBuf ++ [hf]).isEmpty := by
        simp [List.isEmpty_iff]
      have hstep : phase1Step batchSize st hf =
          { groups := groupsInsert st.groups hf
            cacheBuf := []
            flushes := st.flushes ++ [⟨Ctx.background, st.cacheBuf ++ [hf]⟩] } := by
        simp only [phase1Step, flushCacheStep]
        rw [if_pos hc, if_neg hne]
      rw [hstep]
      have h2' : ∀ f ∈ st.flushes ++ [⟨Ctx.background, st.cacheBuf ++ [hf]⟩],
          f.flushCtx = Ctx.background ∧ f.files.length = batchSize := by
        intro f hfmem
        rcases List.mem_append.mp hfmem with hmem | hmem
        · exact h2 f hmem
        · rcases List.mem_singleton.mp hmem with rfl
          exact ⟨rfl, hlen⟩
      have := ih { groups := groupsInsert st.groups hf
                   cacheBuf := []
                   flushes := st.flushes ++ [⟨Ctx.background, st.cacheBuf ++ [hf]⟩] }
        (by simpa using hb) h2'
      refine ⟨?_, this.2.1, this.2.2⟩
      rw [this.1]
      simp [List.append_assoc]
    · have hstep : phase1Step batchSize st hf =
          { groups := groupsInsert st.groups hf
            cacheBuf := st.cacheBuf ++ [hf]
            flushes := st.flushes } := by
        simp only [phase1Step]
        rw [if_neg hc]
      rw [hstep]
      have hlt : (st.cacheBuf ++ [hf]).length < batchSize := by
        simp at hc ⊢
        omega
      have := ih { groups := groupsInsert st.groups hf
                   cacheBuf := st.cacheBuf ++ [hf]
                   flushes := st.flushes } hlt h2
      refine ⟨?_, this.2.1, this.2.2⟩
      rw [this.1]
      simp [List.append_assoc]

/-- The final unconditional flush leaves an empty buffer and moves the
buffer (if any) into the flush list. -/
theorem flushCacheStep_final (st : Phase1State) :
    ((flushCacheStep st).flushes.map CacheFlush.files).flatten =
      (st.flushes.map CacheFlush.files).flatten ++ st.cacheBuf ∧
    (flushCacheStep st).flushes.dropLast.Sublist st.flushes ∧
    (∀ f ∈ (flushCacheStep st).flushes,
      f ∈ st.flushes ∨ f = ⟨Ctx.background, st.cacheBuf⟩) := by
  unfold flushCacheStep
  by_cases he : st.cacheBuf.isEmpty
  · rw [if_pos he]
    have : st.cacheBuf = [] := List.isEmpty_iff.mp he
    refine ⟨by simp [this], ?_, fun f hfm => Or.inl hfm⟩
    exact List.Sublist.trans (List.dropLast_sublist _) (List.Sublist.refl _)
  · rw [if_neg he]
    refine ⟨by simp, ?_, ?_⟩
    · simp only [List.dropLast_concat]
      exact List.Sublist.refl _
    · intro f hfm
      rcases List.mem_append.mp hfm with hmem | hmem
      · exact Or.inl hmem
      · exact Or.inr (List.mem_singleton.mp hmem)

/-- C1: the DB writer flushes every received hashed file into the cache
table — at every batch-size threshold and once more, unconditionally, when
the input channel closes — and every flush runs under the non-cancellable
background context; each flush before the final one carries exactly
`batchSize` files; and when the scan context is cancelled the writer
returns the cancellation error after that final flush, leaving the
duplicate-group tables untouched. -/
theorem dbwriter_progressive_cache_flush (ctx : Ctx) (db : DBState)
    (scanID : Int) (batchSize : Nat) (input : List HashedFile) (now : Int)
    (hb : 1 ≤ batchSize) :
    (((RunDBWriter ctx db scanID batchSize input now).flushes.map
        CacheFlush.files).flatten = input) ∧
    (∀ f ∈ (RunDBWriter ctx db scanID batchSize input now).flushes,
      f.flushCtx = Ctx.background) ∧
    (∀ f ∈ (RunDBWriter ctx db scanID batchSize input now).flushes.dropLast,
      f.files.length = batchSize) ∧
    (∀ e, ctx.err = some e →
      (RunDBWriter ctx db scanID batchSize input now).result =
        Except.error e ∧
      (RunDBWriter ctx db scanID batchSize input now).db = db) := by
  have hinv := runPhase1_flush_inv batchSize hb input ⟨[], [], []⟩
    (by simpa using hb) (by intro f hfm; cases hfm)
  have hfin := flushCacheStep_final (runPhase1 batchSize input)
  have hflushes : (RunDBWriter ctx db scanID batchSize input now).flushes =
      (flushCacheStep (runPhase1 batchSize input)).flushes := by
    unfold RunDBWriter
    cases hctx : ctx.err <;> rfl
  have hjoin : (((RunDBWriter ctx db scanID batchSize input now).flushes.map
      CacheFlush.files).flatten = input) := by
    rw [hflushes, hfin.1]
    have := hinv.1
    simp only [runPhase1]
    simp only [runPhase1] at this ⊢
    rw [this]
    simp
  refine ⟨hjoin, ?_, ?_, ?_⟩
  · intro f hfm
    rw [hflushes] at hfm
    rcases hfin.2.2 f hfm with hmem | rfl
    · exact (hinv.2.2 f (by simpa [runPhase1] using hmem)).1
    · rfl
  · intro f hfm
    rw [hflushes] at hfm
    have hmem : f ∈ (runPhase1 batchSize input).flushes :=
      hfin.2.1.subset hfm
    exact (hinv.2.2 f (by simpa [runPhase1] using hmem)).2
  · intro e he
    unfold RunDBWriter
    rw [he]
    exact ⟨rfl, rfl⟩

/-- Witness for C1: a cancelled scan context, batch size 2 and three input
files. -/
theorem dbwriter_progressive_cache_flush_witness :
    1 ≤ 2 ∧
    ((((RunDBWriter (Ctx.scanCtx true) emptyDB 1 2
          [writerSampleA, writerSampleB, writerSampleC] 0).flushes.map
        CacheFlush.files).flatten =
        [writerSampleA, writerSampleB, writerSampleC]) ∧
      (∀ f ∈ (RunDBWriter (Ctx.scanCtx true) emptyDB 1 2
          [writerSampleA, writerSampleB, writerSampleC] 0).flushes,
        f.flushCtx = Ctx.background) ∧
      (∀ f ∈ (RunDBWriter (Ctx.scanCtx true) emptyDB 1 2
          [writerSampleA, writerSampleB, writerSampleC] 0).flushes.dropLast,
        f.files.length = 2) ∧
      (∀ e, (Ctx.scanCtx true).err = some e →
        (RunDBWriter (Ctx.scanCtx true) emptyDB 1 2
          [writerSampleA, writerSampleB, writerSampleC] 0).result =
          Except.error e ∧
        (RunDBWriter (Ctx.scanCtx true) emptyDB 1 2
          [writerSampleA, writerSampleB, writerSampleC] 0).db = emptyDB)) :=
  ⟨by decide,
   dbwriter_progressive_cache_flush (Ctx.scanCtx true) emptyDB 1 2
     [writerSampleA, writerSampleB, writerSampleC] 0 (by decide)⟩

/- ───────────── duplicate_groups: writer/table lemmas ───────────── -/

/-- A found row is a member with the looked-up hash. -/
theorem findByHash_mem {rows : List GroupRow} {hsh : String} {r : GroupRow}
    (hf : findByHash rows hsh = some r) : r ∈ rows ∧ r.contentHash = hsh := by
  refine ⟨List.mem_of_find?_eq_some hf, ?_⟩
  have := List.find?_some hf
  simpa using this

/-- A failed lookup means no row carries the hash. -/
theorem findByHash_none {rows : List GroupRow} {hsh : String}
    (hf : findByHash rows hsh = none) : ∀ r ∈ rows, r.contentHash ≠ hsh := by
  intro r hr
  have := List.find?_eq_none.mp hf r hr
  simpa using this

/-- `find?` only depends on the predicate's values on the list. -/
theorem find?_congr_pred {α : Type} {l : List α} {p q : α → Bool}
    (h : ∀ x ∈ l, p x = q x) : l.find? p = l.find? q := by
  induction l with
  | nil => rfl
  | cons a t ih =>
    rw [List.find?_cons, List.find?_cons, h a (List.mem_cons_self a t)]
    cases q a
    · exact ih fun x hx => h x (List.mem_cons_of_mem a hx)
    · rfl

/-- Appending a row with a different hash does not change a lookup. -/
theorem findByHash_append_nomatch (rows : List GroupRow) (x : GroupRow)
    (h2 : String) (hne : x.contentHash ≠ h2) :
    findByHash (rows ++ [x]) h2 = findByHash rows h2 := by
  unfold findByHash
  rw [List.find?_append]
  have hb : ¬ ((fun (r : GroupRow) => r.contentHash == h2) x = true) := by
    simp [hne]
  rw [@List.find?_cons_of_neg _ (fun r => r.contentHash == h2) x [] hb]
  rw [show List.find? (fun (r : GroupRow) => r.contentHash == h2) [] = none
    from rfl]
  rw [Option.or_none]

/-- Appending a row with the looked-up hash to a table without it makes
the lookup find the new row. -/
theorem findByHash_append_match (rows : List GroupRow) (x : GroupRow)
    (hsh : String) (hnone : findByHash rows hsh = none)
    (hx : x.contentHash = hsh) :
    findByHash (rows ++ [x]) hsh = some x := by
  unfold findByHash
  rw [List.find?_append]
  rw [show List.find? (fun (r : GroupRow) => r.contentHash == hsh) rows = none
    from hnone]
  rw [Option.none_or]
  have hb : (fun (r : GroupRow) => r.contentHash == hsh) x = true := by
    simp [hx]
  rw [@List.find?_cons_of_pos _ (fun r => r.contentHash == hsh) x [] hb]

/-- Effect of the `INSERT OR IGNORE` statement: well-formedness is kept,
the files table is untouched, other hashes are unaffected, and afterwards
the hash is present — either as the pre-existing row or as a fresh row
with the schema defaults. -/
theorem insertOrIgnore_spec (db : DBState) (hsh : String) (fs : Int)
    (ft : String) (scanID now : Int) (hwf : WFdb db) :
    WFdb (insertOrIgnoreGroup db hsh fs ft scanID now) ∧
    (insertOrIgnoreGroup db hsh fs ft scanID now).files = db.files ∧
    (∀ h2, h2 ≠ hsh →
      findByHash (insertOrIgnoreGroup db hsh fs ft scanID now).groups h2 =
        findByHash db.groups h2) ∧
    ∃ r1, findByHash (insertOrIgnoreGroup db hsh fs ft scanID now).groups hsh =
        some r1 ∧
      (findByHash db.groups hsh = some r1 ∨
       (findByHash db.groups hsh = none ∧
        r1 = { id := db.nextGroupId, contentHash := hsh, fileSize := fs,
               fileType := ft, fileCount := 0, reclaimableBytes := 0,
               status := "unresolved", ignoredAt := none, resolvedAt := none,
               firstSeenScanId := some scanID, lastSeenScanId := some scanID,
               createdAt := now, updatedAt := now })) := by
  cases hcase : findByHash db.groups hsh with
  | some r =>
    have hdb : insertOrIgnoreGroup db hsh fs ft scanID now = db := by
      unfold insertOrIgnoreGroup
      rw [hcase]
    rw [hdb]
    exact ⟨hwf, rfl, fun h2 _ => rfl, r, hcase, Or.inl rfl⟩
  | none =>
    obtain ⟨hid, hhash, hlt⟩ := hwf
    have hdb : insertOrIgnoreGroup db hsh fs ft scanID now =
        { groups := db.groups ++
            [{ id := db.nextGroupId, contentHash := hsh, fileSize := fs,
               fileType := ft, fileCount := 0, reclaimableBytes := 0,
               status := "unresolved", ignoredAt := none, resolvedAt := none,
               firstSeenScanId := some scanID, lastSeenScanId := some scanID,
               createdAt := now, updatedAt := now }]
          files := db.files
          nextGroupId := db.nextGroupId + 1 } := by
      unfold insertOrIgnoreGroup
      rw [hcase]
    rw [hdb]
    refine ⟨⟨?_, ?_, ?_⟩, rfl, ?_, _, ?_, Or.inr ⟨rfl, rfl⟩⟩
    · show ((db.groups ++ [_]).map GroupRow.id).Nodup
      simp only [List.map_append, List.map_singleton]
      rw [List.nodup_append]
      refine ⟨hid, List.nodup_singleton _, ?_⟩
      intro x hx hx1
      simp only [List.mem_singleton] at hx1
      obtain ⟨r, hr, hrid⟩ := List.mem_map.mp hx
      have hxval : x = db.nextGroupId := hx1
      have hltr : r.id < db.nextGroupId := hlt r hr
      omega
    · show ((db.groups ++ [_]).map GroupRow.contentHash).Nodup
      simp only [List.map_append, List.map_singleton]
      rw [List.nodup_append]
      refine ⟨hhash, List.nodup_singleton _, ?_⟩
      intro x hx hx1
      simp only [List.mem_singleton] at hx1
      obtain ⟨r, hr, hrh⟩ := List.mem_map.mp hx
      have hxval : x = hsh := hx1
      have hnonz := findByHash_none hcase r hr
      rw [← hrh] at hxval
      exact hnonz hxval
    · intro r hr
      have hr2 : r ∈ db.groups ++ [_] := hr
      show r.id < db.nextGroupId + 1
      rcases List.mem_append.mp hr2 with hmem | hmem
      · have := hlt r hmem
        omega
      · rcases List.mem_singleton.mp hmem with rfl
        show db.nextGroupId < db.nextGroupId + 1
        omega
    · intro h2 hne
      exact findByHash_append_nomatch db.groups _ h2 (fun hh => hne (hh ▸ rfl))
    · exact findByHash_append_match db.groups _ hsh hcase rfl

/-- The scan's UPDATE statement touches only the five aggregate columns of
the row with the given id: well-formedness and the files table are
untouched, a lookup finds the same row with only those five columns
rewritten (and only when the id matches), and absent hashes stay absent. -/
theorem updateAggregates_spec (db : DBState) (gid : Nat)
    (count reclaimable : Int) (ftype : String) (scanID now : Int)
    (hwf : WFdb db) :
    WFdb (updateGroupAggregates db gid count reclaimable ftype scanID now) ∧
    (updateGroupAggregates db gid count reclaimable ftype scanID now).files =
      db.files ∧
    (∀ hsh r, findByHash db.groups hsh = some r →
      findByHash (updateGroupAggregates db gid count reclaimable ftype
          scanID now).groups hsh =
        some (if r.id == gid then
          { r with fileCount := count, reclaimableBytes := reclaimable,
                   fileType := ftype, lastSeenScanId := some scanID,
                   updatedAt := now }
        else r)) ∧
    (∀ hsh, findByHash db.groups hsh = none →
      findByHash (updateGroupAggregates db gid count reclaimable ftype
          scanID now).groups hsh = none) := by
  set f : GroupRow → GroupRow := fun r =>
    if r.id == gid then
      { r with fileCount := count, reclaimableBytes := reclaimable,
               fileType := ftype, lastSeenScanId := some scanID,
               updatedAt := now }
    else r with hf
  have hfid : ∀ r, (f r).id = r.id := by
    intro r
    rw [hf]
    by_cases hc : r.id == gid <;> simp [hc]
  have hfch : ∀ r, (f r).contentHash = r.contentHash := by
    intro r
    rw [hf]
    by_cases hc : r.id == gid <;> simp [hc]
  have hgroups : (updateGroupAggregates db gid count reclaimable ftype
      scanID now).groups = db.groups.map f := rfl
  have hfind : ∀ hsh,
      findByHash (db.groups.map f) hsh =
        (findByHash db.groups hsh).map f := by
    intro hsh
    unfold findByHash
    rw [List.find?_map f db.groups]
    rw [find?_congr_pred (fun x _ => by
      show ((f x).contentHash == hsh) = (x.contentHash == hsh)
      rw [hfch x])]
  obtain ⟨hid, hhash, hlt⟩ := hwf
  refine ⟨⟨?_, ?_, ?_⟩, rfl, ?_, ?_⟩
  · rw [hgroups, List.map_map]
    rw [show (GroupRow.id ∘ f) = fun r => (f r).id from rfl]
    rw [List.map_congr_left (fun r _ => hfid r)]
    exact hid
  · rw [hgroups, List.map_map]
    rw [show (GroupRow.contentHash ∘ f) = fun r => (f r).contentHash from rfl]
    rw [List.map_congr_left (fun r _ => hfch r)]
    exact hhash
  · intro r hr
    rw [hgroups] at hr
    obtain ⟨r0, hr0, hfr0⟩ := List.mem_map.mp hr
    show r.id < db.nextGroupId
    rw [← hfr0, hfid r0]
    exact hlt r0 hr0
  · intro hsh r hfound
    rw [hgroups, hfind hsh, hfound]
    rfl
  · intro hsh hnone
    rw [hgroups, hfind hsh, hnone]
    rfl

/-- Effect of `writeGroupInTx` on a well-formed table, for a non-empty
group: well-formedness is kept; lookups of other hashes are untouched; the
group's row afterwards carries this scan's aggregates (`file_count`,
`reclaimable_bytes`, `file_type`, `last_seen_scan_id`, `updated_at`) while
row identity, the user-owned columns and `file_size` come from the
pre-existing row when one existed, or from the fresh insert otherwise; and
the group's `duplicate_files` rows are wholesale-replaced by one row per
member, each typed from its own path. -/
theorem writeGroupInTx_spec (db : DBState) (scanID : Int) (hsh : String)
    (f0 : HashedFile) (fs : List HashedFile) (now : Int) (hwf : WFdb db) :
    WFdb (writeGroupInTx db scanID hsh (f0 :: fs) now) ∧
    (∀ h2, h2 ≠ hsh →
      findByHash (writeGroupInTx db scanID hsh (f0 :: fs) now).groups h2 =
        findByHash db.groups h2) ∧
    ∃ r', findByHash (writeGroupInTx db scanID hsh (f0 :: fs) now).groups hsh
        = some r' ∧
      r'.fileCount = ((f0 :: fs).length : Int) ∧
      r'.reclaimableBytes = f0.size * (((f0 :: fs).length : Int) - 1) ∧
      r'.fileType = Detect f0.path ∧
      r'.lastSeenScanId = some scanID ∧
      r'.updatedAt = now ∧
      (∀ r0, findByHash db.groups hsh = some r0 →
        r'.id = r0.id ∧ r'.contentHash = r0.contentHash ∧
        r'.fileSize = r0.fileSize ∧ r'.status = r0.status ∧
        r'.ignoredAt = r0.ignoredAt ∧ r'.resolvedAt = r0.resolvedAt ∧
        r'.firstSeenScanId = r0.firstSeenScanId ∧
        r'.createdAt = r0.createdAt) ∧
      (findByHash db.groups hsh = none →
        r'.fileSize = f0.size ∧ r'.status = "unresolved" ∧
        r'.firstSeenScanId = some scanID ∧ r'.createdAt = now) ∧
      (writeGroupInTx db scanID hsh (f0 :: fs) now).files.filter
          (fun fr => fr.groupId == r'.id) =
        (f0 :: fs).map (fun f =>
          { groupId := r'.id, scanId := scanID, path := f.path,
            size := f.size, mtime := f.mtime,
            fileType := Detect f.path }) := by
  obtain ⟨hwf1, hfiles1, hframe1, r1, hr1, hr1src⟩ :=
    insertOrIgnore_spec db hsh f0.size (Detect f0.path) scanID now hwf
  set db1 := insertOrIgnoreGroup db hsh f0.size (Detect f0.path) scanID now
    with hdb1
  have hlook : lookupGroupId db1 hsh = some r1.id := by
    unfold lookupGroupId
    rw [hr1]
    rfl
  set dbF := insertFileRows (deleteFilesForGroup db1 r1.id) r1.id scanID
    (f0 :: fs) with hdbF
  have hw : writeGroupInTx db scanID hsh (f0 :: fs) now =
      updateGroupAggregates dbF r1.id ((f0 :: fs).length : Int)
        (f0.size * (((f0 :: fs).length : Int) - 1)) (Detect f0.path)
        scanID now := by
    show (match lookupGroupId db1 hsh with
          | none => db1
          | some gid =>
            updateGroupAggregates
              (insertFileRows (deleteFilesForGroup db1 gid) gid scanID
                (f0 :: fs))
              gid ((f0 :: fs).length : Int)
              (f0.size * (((f0 :: fs).length : Int) - 1)) (Detect f0.path)
              scanID now) = _
    rw [hlook]
  have hwfF : WFdb dbF := hwf1
  have hfindF : findByHash dbF.groups hsh = some r1 := hr1
  obtain ⟨hwfU, hfilesU, hfoundU, hnoneU⟩ :=
    updateAggregates_spec dbF r1.id ((f0 :: fs).length : Int)
      (f0.size * (((f0 :: fs).length : Int) - 1)) (Detect f0.path)
      scanID now hwfF
  have hfinal := hfoundU hsh r1 hfindF
  rw [if_pos (beq_self_eq_true r1.id)] at hfinal
  refine ⟨?_, ?_, ?_⟩
  · rw [hw]
    exact hwfU
  · intro h2 hne
    rw [hw]
    have hstep := hframe1 h2 hne
    cases hcase2 : findByHash db.groups h2 with
    | some r2 =>
      have hr2F : findByHash dbF.groups h2 = some r2 := by
        rw [show dbF.groups = db1.groups from rfl]
        rw [hstep, hcase2]
      have := hfoundU h2 r2 hr2F
      have hne12 : r2.id ≠ r1.id := by
        intro heq
        have hr2mem := findByHash_mem hr2F
        have hr1mem := findByHash_mem (show findByHash db1.groups hsh = some r1 from hr1)
        obtain ⟨hwf1a, hwf1b, _⟩ := hwf1
        have : r2 = r1 := List.inj_on_of_nodup_map hwf1a hr2mem.1 hr1mem.1 heq
        rw [this] at hr2mem
        exact hne (hr2mem.2.symm ▸ hr1mem.2 ▸ rfl)
      rw [this, if_neg (by simp [hne12])]
    | none =>
      have hr2F : findByHash dbF.groups h2 = none := by
        rw [show dbF.groups = db1.groups from rfl]
        rw [hstep, hcase2]
      exact hnoneU h2 hr2F
  · refine ⟨{ r1 with
        fileCount := ((f0 :: fs).length : Int)
        reclaimableBytes := f0.size * (((f0 :: fs).length : Int) - 1)
        fileType := Detect f0.path
        lastSeenScanId := some scanID
        updatedAt := now }, ?_, rfl, rfl, rfl, rfl, rfl, ?_, ?_, ?_⟩
    · rw [hw]
      exact hfinal
    · intro r0 hfound0
      rcases hr1src with hsame | ⟨hnone0, _⟩
      · rw [hfound0] at hsame
        injection hsame with hsame
        rw [hsame]
        exact ⟨rfl, rfl, rfl, rfl, rfl, rfl, rfl, rfl⟩
      · rw [hfound0] at hnone0
        cases hnone0
    · intro hnone0
      rcases hr1src with hsame | ⟨_, hfresh⟩
      · rw [hnone0] at hsame
        cases hsame
      · rw [hfresh]
        exact ⟨rfl, rfl, rfl, rfl⟩
    · rw [hw]
      have hfilesW : (updateGroupAggregates dbF r1.id
          ((f0 :: fs).length : Int)
          (f0.size * (((f0 :: fs).length : Int) - 1)) (Detect f0.path)
          scanID now).files = dbF.files := hfilesU
      rw [hfilesW]
      show (((db1.files.filter (fun (f : FileRow) => f.groupId != r1.id)) ++
          (f0 :: fs).map (fun (f : HashedFile) =>
            ({ groupId := r1.id, scanId := scanID, path := f.path,
               size := f.size, mtime := f.mtime,
               fileType := Detect f.path } : FileRow))).filter
          (fun (fr : FileRow) => fr.groupId == r1.id)) = _
      rw [List.filter_append]
      have hleft : (db1.files.filter
          (fun (f : FileRow) => f.groupId != r1.id)).filter
          (fun (fr : FileRow) => fr.groupId == r1.id) = [] := by
        rw [List.filter_filter]
        apply List.filter_eq_nil_iff.mpr
        intro fr _
        by_cases hc : fr.groupId == r1.id <;> simp [hc, bne]
      have hright : ((f0 :: fs).map (fun (f : HashedFile) =>
          ({ groupId := r1.id, scanId := scanID, path := f.path,
             size := f.size, mtime := f.mtime,
             fileType := Detect f.path } : FileRow))).filter
          (fun (fr : FileRow) => fr.groupId == r1.id) =
          (f0 :: fs).map (fun (f : HashedFile) =>
            ({ groupId := r1.id, scanId := scanID, path := f.path,
               size := f.size, mtime := f.mtime,
               fileType := Detect f.path } : FileRow)) := by
        apply List.filter_eq_self.mpr
        intro fr hfr
        obtain ⟨f, _, hfeq⟩ := List.mem_map.mp hfr
        rw [← hfeq]
        simp
      rw [hleft, hright, List.nil_append]

/-- Folding `writeGroupInTx` over entries whose hashes avoid `hsh` leaves
the lookup of `hsh` unchanged and keeps well-formedness. -/
theorem foldWrite_frame (scanID now : Int) :
    ∀ (es : List (String × List HashedFile)) (db : DBState), WFdb db →
      ∀ hsh, hsh ∉ es.map Prod.fst →
        findByHash ((es.foldl (fun d p =>
            writeGroupInTx d scanID p.1 p.2 now) db).groups) hsh =
          findByHash db.groups hsh ∧
        WFdb (es.foldl (fun d p => writeGroupInTx d scanID p.1 p.2 now) db)
    := by
  intro es
  induction es with
  | nil =>
    intro db hwf hsh _
    exact ⟨rfl, hwf⟩
  | cons q rest ih =>
    intro db hwf hsh hnot
    simp only [List.map_cons, List.mem_cons, not_or] at hnot
    rw [List.foldl_cons]
    cases hq2 : q.2 with
    | nil =>
      rw [show writeGroupInTx db scanID q.1 [] now = db from rfl]
      exact ih db hwf hsh hnot.2
    | cons f0 fs =>
      have hspec := writeGroupInTx_spec db scanID q.1 f0 fs now hwf
      obtain ⟨hwfW, hframeW, _⟩ := hspec
      have hrec := ih (writeGroupInTx db scanID q.1 (f0 :: fs) now) hwfW
        hsh hnot.2
      refine ⟨?_, hrec.2⟩
      rw [hrec.1, hframeW hsh hnot.1]

/-- Folding `writeGroupInTx` preserves the identity and user-owned columns
of any row whose hash is already present. -/
theorem foldWrite_preserves_user_state (scanID now : Int) :
    ∀ (es : List (String × List HashedFile)) (db : DBState), WFdb db →
      ∀ hsh r0, findByHash db.groups hsh = some r0 →
        ∃ r', findByHash ((es.foldl (fun d p =>
            writeGroupInTx d scanID p.1 p.2 now) db).groups) hsh = some r' ∧
          r'.id = r0.id ∧ r'.contentHash = r0.contentHash ∧
          r'.fileSize = r0.fileSize ∧ r'.status = r0.status ∧
          r'.ignoredAt = r0.ignoredAt ∧ r'.resolvedAt = r0.resolvedAt ∧
          r'.firstSeenScanId = r0.firstSeenScanId ∧
          r'.createdAt = r0.createdAt := by
  intro es
  induction es with
  | nil =>
    intro db hwf hsh r0 hf
    exact ⟨r0, hf, rfl, rfl, rfl, rfl, rfl, rfl, rfl, rfl⟩
  | cons q rest ih =>
    intro db hwf hsh r0 hf
    rw [List.foldl_cons]
    cases hq2 : q.2 with
    | nil =>
      rw [show writeGroupInTx db scanID q.1 [] now = db from rfl]
      exact ih db hwf hsh r0 hf
    | cons f0 fs =>
      have hspec := writeGroupInTx_spec db scanID q.1 f0 fs now hwf
      obtain ⟨hwfW, hframeW, r2, hfindW, _, _, _, _, _, huser, _, _⟩ := hspec
      by_cases hqh : q.1 = hsh
      · have hf' : findByHash db.groups q.1 = some r0 := by
          rw [hqh]
          exact hf
        obtain ⟨e1, e2, e3, e4, e5, e6, e7, e8⟩ := huser r0 hf'
        have hfindW' : findByHash
            (writeGroupInTx db scanID q.1 (f0 :: fs) now).groups hsh =
            some r2 := by
          rw [← hqh]
          exact hfindW
        obtain ⟨r', hr', g1, g2, g3, g4, g5, g6, g7, g8⟩ :=
          ih (writeGroupInTx db scanID q.1 (f0 :: fs) now) hwfW hsh r2 hfindW'
        exact ⟨r', hr', g1.trans e1, g2.trans e2, g3.trans e3, g4.trans e4,
          g5.trans e5, g6.trans e6, g7.trans e7, g8.trans e8⟩
      · have hframe' : findByHash
            (writeGroupInTx db scanID q.1 (f0 :: fs) now).groups hsh =
            some r0 := by
          rw [hframeW hsh (fun h => hqh h.symm)]
          exact hf
        exact ih (writeGroupInTx db scanID q.1 (f0 :: fs) now) hwfW hsh r0
          hframe'

/-- C4: a re-scan that touches a duplicate group whose content hash already
exists in the store leaves the group's user-owned state unchanged: after
`persistGroups` the row for that hash still exists with the same id,
content hash, `file_size`, `status`, `ignored_at`, `resolved_at`,
`first_seen_scan_id` and `created_at` — insert-if-absent skips the
existing row and the update statement rewrites only `file_count`,
`reclaimable_bytes`, `file_type`, `last_seen_scan_id` and `updated_at`,
never `status`. -/
theorem rescan_preserves_group_status (db : DBState) (scanID : Int)
    (entries : List (String × List HashedFile)) (now : Int) (hwf : WFdb db)
    (hsh : String) (r0 : GroupRow)
    (hfound : findByHash db.groups hsh = some r0) :
    ∃ r', findByHash (persistGroups db scanID entries now).1.groups hsh =
        some r' ∧
      r'.id = r0.id ∧ r'.contentHash = r0.contentHash ∧
      r'.fileSize = r0.fileSize ∧ r'.status = r0.status ∧
      r'.ignoredAt = r0.ignoredAt ∧ r'.resolvedAt = r0.resolvedAt ∧
      r'.firstSeenScanId = r0.firstSeenScanId ∧
      r'.createdAt = r0.createdAt := by
  have hpg : (persistGroups db scanID entries now).1 =
      (entries.filter (fun p => 2 ≤ p.2.length)).foldl
        (fun d p => writeGroupInTx d scanID p.1 p.2 now) db := rfl
  rw [hpg]
  exact foldWrite_preserves_user_state scanID now
    (entries.filter (fun p => 2 ≤ p.2.length)) db hwf hsh r0 hfound

/-- Witness for C4: re-scanning a store that holds an ignored group for
hash `"hh"` with a fresh two-file group under that hash. -/
theorem rescan_preserves_group_status_witness :
    WFdb dbWithGroup ∧
    findByHash dbWithGroup.groups "hh" = some existingGroupRow ∧
    (∃ r', findByHash (persistGroups dbWithGroup 2
        [("hh", [jpgSample, pdfSample])] 9).1.groups "hh" = some r' ∧
      r'.id = existingGroupRow.id ∧
      r'.contentHash = existingGroupRow.contentHash ∧
      r'.fileSize = existingGroupRow.fileSize ∧
      r'.status = existingGroupRow.status ∧
      r'.ignoredAt = existingGroupRow.ignoredAt ∧
      r'.resolvedAt = existingGroupRow.resolvedAt ∧
      r'.firstSeenScanId = existingGroupRow.firstSeenScanId ∧
      r'.createdAt = existingGroupRow.createdAt) :=
  ⟨by unfold WFdb; decide, by decide,
   rescan_preserves_group_status dbWithGroup 2
     [("hh", [jpgSample, pdfSample])] 9 (by unfold WFdb; decide) "hh"
     existingGroupRow (by decide)⟩

/-- Folding `writeGroupInTx` over entries with pairwise-distinct hashes
writes, for each non-empty entry, a row carrying this scan's aggregates. -/
theorem foldWrite_writes_entry (scanID now : Int) :
    ∀ (es : List (String × List HashedFile)) (db : DBState), WFdb db →
      (es.map Prod.fst).Nodup →
      ∀ p ∈ es, ∀ f0 fs, p.2 = f0 :: fs →
        ∃ r, findByHash ((es.foldl (fun d p =>
            writeGroupInTx d scanID p.1 p.2 now) db).groups) p.1 = some r ∧
          r.fileCount = (p.2.length : Int) ∧
          r.reclaimableBytes = f0.size * ((p.2.length : Int) - 1) ∧
          r.fileType = Detect f0.path ∧
          r.lastSeenScanId = some scanID ∧
          (findByHash db.groups p.1 = none → r.fileSize = f0.size) := by
  intro es
  induction es with
  | nil =>
    intro db _ _ p hp
    cases hp
  | cons q rest ih =>
    intro db hwf hnd p hp f0 fs hp2
    have hnd' : (rest.map Prod.fst).Nodup := (List.nodup_cons.mp hnd).2
    have hqrest : q.1 ∉ rest.map Prod.fst := (List.nodup_cons.mp hnd).1
    rw [List.foldl_cons]
    rcases List.mem_cons.mp hp with rfl | hprest
    · rw [hp2]
      have hspec := writeGroupInTx_spec db scanID p.1 f0 fs now hwf
      obtain ⟨hwfW, hframeW, r2, hfindW, hc1, hc2, hc3, hc4, _, _, hfresh,
        _⟩ := hspec
      have hframe := foldWrite_frame scanID now rest
        (writeGroupInTx db scanID p.1 (f0 :: fs) now) hwfW p.1 hqrest
      refine ⟨r2, ?_, hc1, hc2, hc3, hc4, ?_⟩
      · rw [hframe.1]
        exact hfindW
      · intro hnone
        exact (hfresh hnone).1
    · have hp1 : p.1 ∈ rest.map Prod.fst :=
        List.mem_map.mpr ⟨p, hprest, rfl⟩
      have hqp : q.1 ≠ p.1 := fun h => hqrest (h ▸ hp1)
      cases hq2 : q.2 with
      | nil =>
        rw [show writeGroupInTx db scanID q.1 [] now = db from rfl]
        exact ih db hwf hnd' p hprest f0 fs hp2
      | cons g0 gs =>
        have hspec := writeGroupInTx_spec db scanID q.1 g0 gs now hwf
        obtain ⟨hwfW, hframeW, _⟩ := hspec
        obtain ⟨r, hr, d1, d2, d3, d4, d5⟩ :=
          ih (writeGroupInTx db scanID q.1 (g0 :: gs) now) hwfW hnd' p
            hprest f0 fs hp2
        refine ⟨r, hr, d1, d2, d3, d4, ?_⟩
        intro hnone
        apply d5
        rw [hframeW p.1 (fun h => hqp h.symm)]
        exact hnone

/-- C3 (amended): every duplicate-group row written by the writer has
`file_count` equal to the group's number of files (at least 2) and
`reclaimable_bytes = (file_count − 1) ×` (the size of the group's first
file in this scan); whenever the row is created by this scan — the content
hash was not already present — the persisted `file_size` equals that size,
and hence `reclaimable_bytes = (file_count − 1) × file_size`.  (For a
pre-existing row the stored `file_size` is not rewritten, so the product
is taken over this scan's first-file size instead.) -/
theorem group_rows_invariant (db : DBState) (scanID : Int)
    (entries : List (String × List HashedFile)) (now : Int) (hwf : WFdb db)
    (hkeys : (entries.map Prod.fst).Nodup)
    (p : String × List HashedFile) (hp : p ∈ entries) (f0 : HashedFile)
    (fs : List HashedFile) (hp2 : p.2 = f0 :: fs) (hlen : 2 ≤ p.2.length) :
    ∃ r, findByHash (persistGroups db scanID entries now).1.groups p.1 =
        some r ∧
      r.fileCount = (p.2.length : Int) ∧
      2 ≤ r.fileCount ∧
      r.reclaimableBytes = f0.size * ((p.2.length : Int) - 1) ∧
      (findByHash db.groups p.1 = none →
        r.fileSize = f0.size ∧
        r.reclaimableBytes = (r.fileCount - 1) * r.fileSize) := by
  have hpg : (persistGroups db scanID entries now).1 =
      (entries.filter (fun p => 2 ≤ p.2.length)).foldl
        (fun d p => writeGroupInTx d scanID p.1 p.2 now) db := rfl
  have hpf : p ∈ entries.filter (fun p => 2 ≤ p.2.length) :=
    List.mem_filter.mpr ⟨hp, by simpa using hlen⟩
  have hkf : ((entries.filter (fun p => 2 ≤ p.2.length)).map Prod.fst).Nodup :=
    ((List.filter_sublist entries).map Prod.fst).nodup hkeys
  obtain ⟨r, hr, e1, e2, _, _, e5⟩ := foldWrite_writes_entry scanID now
    (entries.filter (fun p => 2 ≤ p.2.length)) db hwf hkf p hpf f0 fs hp2
  refine ⟨r, by rw [hpg]; exact hr, e1, ?_, e2, ?_⟩
  · rw [e1]
    omega
  · intro hnone
    have hfs := e5 hnone
    refine ⟨hfs, ?_⟩
    rw [e2, e1, hfs]
    ring

/-- C3 counterexample: run the writer twice.  Scan 1 creates the group
for hash `"hs"` from two 10-byte files (`file_size = 10`).  In scan 2 the
walk-time stat races a concurrent modification and records size 20 on both
files while the hashed content — and so the content hash — is unchanged.
The update then stores `reclaimable_bytes = 20` against the retained
`file_size = 10`, so the persisted row violates
`reclaimable_bytes = (file_count − 1) · file_size`. -/
theorem group_reclaimable_counterexample :
    (findByHash (persistGroups (persistGroups emptyDB 1
          [("hs", [sizedSampleA, sizedSampleB])] 0).1 2
          [("hs", [sizedSampleA2, sizedSampleB2])] 9).1.groups "hs").map
        (fun r => (r.fileCount, r.fileSize, r.reclaimableBytes)) =
      some (2, 10, 20) ∧
    ¬ ((20 : Int) = ((2 : Int) - 1) * 10) := by
  exact ⟨by decide, by decide⟩

/-- Witness for C3 at a fresh store and a single two-file group. -/
theorem group_rows_invariant_witness :
    WFdb emptyDB ∧
    (∃ r, findByHash (persistGroups emptyDB 1
        [("hs", [sizedSampleA, sizedSampleB])] 0).1.groups "hs" = some r ∧
      r.fileCount = (([sizedSampleA, sizedSampleB] : List HashedFile).length
        : Int) ∧
      2 ≤ r.fileCount ∧
      r.reclaimableBytes = sizedSampleA.size *
        ((([sizedSampleA, sizedSampleB] : List HashedFile).length : Int)
          - 1) ∧
      (findByHash emptyDB.groups "hs" = none →
        r.fileSize = sizedSampleA.size ∧
        r.reclaimableBytes = (r.fileCount - 1) * r.fileSize)) :=
  ⟨by unfold WFdb; decide,
   group_rows_invariant emptyDB 1 [("hs", [sizedSampleA, sizedSampleB])] 0
     (by unfold WFdb; decide) (by decide)
     ("hs", [sizedSampleA, sizedSampleB]) (by decide) sizedSampleA
     [sizedSampleB] (by decide) (by decide)⟩

/-- C6 (amended): for every duplicate group written, the type stored on
the group row is derived by extension match from the group's first file,
and each member's `duplicate_files` row carries the type detected from
that member's own path — which coincides with the group's inherited type
exactly when the member's extension classifies the same way. -/
theorem group_type_from_first_member (db : DBState) (scanID : Int)
    (hsh : String) (f0 : HashedFile) (fs : List HashedFile) (now : Int)
    (hwf : WFdb db) :
    ∃ r, findByHash (writeGroupInTx db scanID hsh (f0 :: fs) now).groups hsh
        = some r ∧
      r.fileType = Detect f0.path ∧
      (writeGroupInTx db scanID hsh (f0 :: fs) now).files.filter
          (fun fr => fr.groupId == r.id) =
        (f0 :: fs).map (fun f =>
          { groupId := r.id, scanId := scanID, path := f.path,
            size := f.size, mtime := f.mtime,
            fileType := Detect f.path }) := by
  obtain ⟨_, _, r, hfind, _, _, hft, _, _, _, _, hfiles⟩ :=
    writeGroupInTx_spec db scanID hsh f0 fs now hwf
  exact ⟨r, hfind, hft, hfiles⟩

/-- C6 counterexample: two identical-content files under extensions `.jpg`
and `.pdf`.  The group row stores type `"image"` (from the first file) but
the second member's `duplicate_files` row stores `"document"` — members do
not inherit the group's type. -/
theorem group_type_inheritance_counterexample :
    ((writeGroupInTx emptyDB 1 "hh" [jpgSample, pdfSample] 0).files.map
        FileRow.fileType) = ["image", "document"] ∧
    (findByHash (writeGroupInTx emptyDB 1 "hh"
        [jpgSample, pdfSample] 0).groups "hh").map GroupRow.fileType =
      some "image" ∧
    ("document" : String) ≠ "image" :=
  ⟨by decide, by decide, by decide⟩

/-- Witness for C6 (amended) on a fresh store with the `.jpg`/`.pdf`
pair. -/
theorem group_type_from_first_member_witness :
    WFdb emptyDB ∧
    (∃ r, findByHash (writeGroupInTx emptyDB 1 "hh"
        [jpgSample, pdfSample] 0).groups "hh" = some r ∧
      r.fileType = Detect jpgSample.path ∧
      (writeGroupInTx emptyDB 1 "hh" [jpgSample, pdfSample] 0).files.filter
          (fun fr => fr.groupId == r.id) =
        ([jpgSample, pdfSample] : List HashedFile).map (fun f =>
          { groupId := r.id, scanId := 1, path := f.path,
            size := f.size, mtime := f.mtime,
            fileType := Detect f.path })) :=
  ⟨by unfold WFdb; decide,
   group_type_from_first_member emptyDB 1 "hh" jpgSample [pdfSample] 0
     (by unfold WFdb; decide)⟩

/- ───────────── walker queue: termination protocol ───────────── -/

/-- Protocol invariant: `pending` always equals queued + in-flight +
pre-increment work, and the queue is closed only when `pending` is zero. -/
theorem qstep_invariant (n : Nat) (s : QState) (h : QReach (initQ n) s) :
    s.pending = (s.queued : Int) + s.inflight + s.preInc ∧
    (s.closed = true → s.pending = 0) := by
  induction h with
  | refl =>
    constructor
    · simp [initQ]
    · intro hcl
      simp [initQ] at hcl
  | tail s t hr hstep ih =>
    obtain ⟨hsum, hcl⟩ := ih
    cases hstep with
    | inc hinf =>
      constructor
      · show s.pending + 1 = (s.queued : Int) + s.inflight + (s.preInc + 1)
        omega
      · intro hclosed
        have := hcl hclosed
        omega
    | push hp =>
      constructor
      · show s.pending = ((s.queued + 1 : Nat) : Int) + s.inflight +
          ((s.preInc - 1 : Nat) : Int)
        rw [hsum]
        push_cast [hp]
        omega
      · intro hclosed
        have h0 := hcl hclosed
        rw [hsum] at h0
        omega
    | pop hq =>
      constructor
      · show s.pending = ((s.queued - 1 : Nat) : Int) +
          ((s.inflight + 1 : Nat) : Int) + s.preInc
        rw [hsum]
        push_cast [hq]
        omega
      · intro hclosed
        have h0 := hcl hclosed
        rw [hsum] at h0
        omega
    | done hinf =>
      constructor
      · show s.pending - 1 = (s.queued : Int) +
          ((s.inflight - 1 : Nat) : Int) + s.preInc
        rw [hsum]
        push_cast [hinf]
        omega
      · intro hclosed
        have horb := Bool.or_eq_true_iff.mp hclosed
        show s.pending - 1 = 0
        rcases horb with hc | hd
        · have h0 := hcl hc
          rw [hsum] at h0
          omega
        · exact of_decide_eq_true hd

/-- C2: in every execution of the walker protocol — each popped directory
has its subdirectories pushed, each push preceded by a pending increment,
before its `Done` runs — the pending counter equals the outstanding work,
so it is never zero while any pushed directory is queued or in flight; a
state with a zero counter is terminal (so the counter reaches zero at most
once, on the final `Done`); the `Done` that drives the counter to zero
closes the queue; and in every closed state a subsequent or blocked `Pop`
observes the closed signal. -/
theorem walker_termination_protocol (n : Nat) (s : QState)
    (h : QReach (initQ n) s) :
    (s.pending = (s.queued : Int) + s.inflight + s.preInc) ∧
    (s.pending = 0 →
      s.queued = 0 ∧ s.inflight = 0 ∧ s.preInc = 0 ∧ ∀ t, ¬ QStep s t) ∧
    (∀ t, QStep s t → t.pending = 0 → t.closed = true) ∧
    (s.closed = true →
      s.pending = 0 ∧ popObserve s = PopOutcome.closedSignal) := by
  obtain ⟨hsum, hcl⟩ := qstep_invariant n s h
  have hzero : s.pending = 0 →
      s.queued = 0 ∧ s.inflight = 0 ∧ s.preInc = 0 := by
    intro h0
    rw [hsum] at h0
    omega
  refine ⟨hsum, ?_, ?_, ?_⟩
  · intro h0
    obtain ⟨hq, hi, hp⟩ := hzero h0
    refine ⟨hq, hi, hp, ?_⟩
    intro t hstep
    cases hstep with
    | inc hinf => omega
    | push hpp => omega
    | pop hqq => omega
    | done hinf => omega
  · intro t hstep hp0
    cases hstep with
    | inc hinf =>
      exfalso
      have : s.pending + 1 = 0 := hp0
      rw [hsum] at this
      omega
    | push hpp =>
      exfalso
      have h0 : s.pending = 0 := hp0
      obtain ⟨_, _, hp⟩ := hzero h0
      omega
    | pop hqq =>
      exfalso
      have h0 : s.pending = 0 := hp0
      obtain ⟨hq, _, _⟩ := hzero h0
      omega
    | done hinf =>
      show (s.closed || decide (s.pending - 1 = 0)) = true
      have : s.pending - 1 = 0 := hp0
      rw [decide_eq_true this]
      simp
  · intro hclosed
    have h0 := hcl hclosed
    obtain ⟨hq, _, _⟩ := hzero h0
    refine ⟨h0, ?_⟩
    unfold popObserve
    rw [if_neg (by omega), if_pos hclosed]

/-- Witness for C2 at the terminal state of a one-directory walk:
seed one root, pop it, call `Done`. -/
theorem walker_termination_protocol_witness :
    ((⟨0, 0, 0, 0, true⟩ : QState).pending =
      (((⟨0, 0, 0, 0, true⟩ : QState).queued : Nat) : Int) +
      (⟨0, 0, 0, 0, true⟩ : QState).inflight +
      (⟨0, 0, 0, 0, true⟩ : QState).preInc) ∧
    ((⟨0, 0, 0, 0, true⟩ : QState).pending = 0 →
      (⟨0, 0, 0, 0, true⟩ : QState).queued = 0 ∧
      (⟨0, 0, 0, 0, true⟩ : QState).inflight = 0 ∧
      (⟨0, 0, 0, 0, true⟩ : QState).preInc = 0 ∧
      ∀ t, ¬ QStep (⟨0, 0, 0, 0, true⟩ : QState) t) ∧
    (∀ t, QStep (⟨0, 0, 0, 0, true⟩ : QState) t → t.pending = 0 →
      t.closed = true) ∧
    ((⟨0, 0, 0, 0, true⟩ : QState).closed = true →
      (⟨0, 0, 0, 0, true⟩ : QState).pending = 0 ∧
      popObserve (⟨0, 0, 0, 0, true⟩ : QState) = PopOutcome.closedSignal) := by
  have h1 : QStep (initQ 1) ⟨1, 0, 1, 0, false⟩ := by
    have hs := QStep.pop (initQ 1) (by simp [initQ])
    exact hs
  have h2 : QStep (⟨1, 0, 1, 0, false⟩ : QState) ⟨0, 0, 0, 0, true⟩ := by
    have hs := QStep.done (⟨1, 0, 1, 0, false⟩ : QState) (by simp)
    exact hs
  have hreach : QReach (initQ 1) ⟨0, 0, 0, 0, true⟩ :=
    QReach.tail _ _ (QReach.tail _ _ (QReach.refl) h1) h2
  exact walker_termination_protocol 1 ⟨0, 0, 0, 0, true⟩ hreach

/- ───────────── Walk on empty roots: blocked workers ───────────── -/

/-- Membership from an indexed lookup. -/
theorem mem_of_getElemOpt {α : Type} {l : List α} {i : Nat} {a : α}
    (h : l[i]? = some a) : a ∈ l := by
  rw [List.getElem?_eq_some] at h
  obtain ⟨hlt, rfl⟩ := h
  exact List.getElem_mem hlt

/-- Invariant of `Walk` on an empty root set: the queue state never moves
(`pending` stays 0, nothing is ever queued, `Done` never runs, the queue
never closes), no worker ever processes a directory, and a worker can be
exited only when the context is cancelled. -/
theorem walk_empty_roots_invariant (k : Nat) (s : WalkSys)
    (h : WalkReach (sysInit 0 k) s) :
    s.q = initQ 0 ∧
    (∀ w ∈ s.workers, w ≠ WPC.processing) ∧
    (∀ (j : Nat), s.workers[j]? = some WPC.exited → s.cancelled = true) := by
  induction h with
  | refl =>
    refine ⟨rfl, ?_, ?_⟩
    · intro w hw
      rw [List.eq_of_mem_replicate hw]
      intro hcontra
      cases hcontra
    · intro j hj
      exfalso
      have hmem : WPC.exited ∈ List.replicate k WPC.atCheck :=
        mem_of_getElemOpt hj
      have := List.eq_of_mem_replicate hmem
      cases this
  | tail s t hr hstep ih =>
    obtain ⟨hq, hnp, hex⟩ := ih
    have hqueued : s.q.queued = 0 := by rw [hq]; rfl
    have hclosed : s.q.closed = false := by rw [hq]; rfl
    cases hstep with
    | cancel =>
      exact ⟨hq, hnp, fun j _ => rfl⟩
    | checkExit i hi hc =>
      refine ⟨hq, ?_, fun j _ => hc⟩
      intro w hw
      rcases List.mem_or_eq_of_mem_set hw with hmem | rfl
      · exact hnp w hmem
      · intro hcontra
        cases hcontra
    | enterPopBlocked i hi hc hq0 hcl =>
      refine ⟨hq, ?_, ?_⟩
      · intro w hw
        rcases List.mem_or_eq_of_mem_set hw with hmem | rfl
        · exact hnp w hmem
        · intro hcontra
          cases hcontra
      · intro j hj
        by_cases hij : i = j
        · exfalso
          rw [← hij] at hj
          have hlen : i < s.workers.length := by
            rw [List.getElem?_eq_some] at hi
            exact hi.1
          rw [List.getElem?_set_eq_of_lt WPC.blockedInPop hlen] at hj
          cases hj
        · rw [List.getElem?_set_ne hij] at hj
          exact hex j hj
    | enterPopClosedExit i hi hc hq0 hcl =>
      rw [hclosed] at hcl
      cases hcl
    | popClosedExit i hi hq0 hcl =>
      rw [hclosed] at hcl
      cases hcl
    | popTake i hi hc hq1 =>
      rw [hqueued] at hq1
      cases hq1
    | popWake i hi hq1 =>
      rw [hqueued] at hq1
      cases hq1
    | procInc i hi =>
      exfalso
      exact hnp WPC.processing (mem_of_getElemOpt hi) rfl
    | procPush i hi hp =>
      exfalso
      exact hnp WPC.processing (mem_of_getElemOpt hi) rfl
    | procDone i hi =>
      exfalso
      exact hnp WPC.processing (mem_of_getElemOpt hi) rfl

/-- C10 (amended): with an empty root set, the pending counter stays at
zero, `Done` is never called and the queue is never closed; every worker
that passes its pre-`Pop` cancellation check blocks inside `Pop` forever —
no later step, including cancellation, unblocks it, since `Pop` does not
observe cancellation — so `Walk` cannot return once any worker has entered
`Pop`.  A worker exits only by observing cancellation at its pre-`Pop`
check, so `Walk` returns only in executions where the context is cancelled
before every worker's first check. -/
theorem walk_empty_roots_blocks (k : Nat) (s : WalkSys)
    (h : WalkReach (sysInit 0 k) s) :
    s.q = initQ 0 ∧
    s.q.closed = false ∧
    (∀ (j : Nat), s.workers[j]? = some WPC.exited → s.cancelled = true) ∧
    (∀ (i : Nat), s.workers[i]? = some WPC.blockedInPop →
      ∀ t, WalkStep s t → t.workers[i]? = some WPC.blockedInPop) := by
  obtain ⟨hq, hnp, hex⟩ := walk_empty_roots_invariant k s h
  have hqueued : s.q.queued = 0 := by rw [hq]; rfl
  have hclosed : s.q.closed = false := by rw [hq]; rfl
  refine ⟨hq, hclosed, hex, ?_⟩
  intro i hi t hstep
  cases hstep with
  | cancel => exact hi
  | checkExit j hj hc =>
    have hij : j ≠ i := by
      intro heq
      rw [heq, hi] at hj
      cases hj
    rw [List.getElem?_set_ne hij]
    exact hi
  | enterPopBlocked j hj hc hq0 hcl =>
    by_cases hij : j = i
    · rw [← hij] at hi ⊢
      have hlen : j < s.workers.length := by
        rw [List.getElem?_eq_some] at hj
        exact hj.1
      rw [List.getElem?_set_eq_of_lt WPC.blockedInPop hlen]
    · rw [List.getElem?_set_ne hij]
      exact hi
  | enterPopClosedExit j hj hc hq0 hcl =>
    rw [hclosed] at hcl
    cases hcl
  | popClosedExit j hj hq0 hcl =>
    rw [hclosed] at hcl
    cases hcl
  | popTake j hj hc hq1 =>
    rw [hqueued] at hq1
    cases hq1
  | popWake j hj hq1 =>
    rw [hqueued] at hq1
    cases hq1
  | procInc j hj => exact hi
  | procPush j hj hp => exact hi
  | procDone j hj =>
    exfalso
    exact hnp WPC.processing (mem_of_getElemOpt hj) rfl

/-- C10 counterexample: with empty roots and one worker, cancelling the
context before the worker's first check makes the worker exit at the
check, `wg.Wait()` completes, and `Walk` returns — so "Walk never
returns, even if the context is cancelled" is false as stated. -/
theorem walk_empty_roots_counterexample :
    WalkReach (sysInit 0 1) ⟨initQ 0, [WPC.exited], true⟩ ∧
    (∀ w ∈ ([WPC.exited] : List WPC), w = WPC.exited) := by
  constructor
  · have h1 : WalkStep (sysInit 0 1) ⟨initQ 0, [WPC.atCheck], true⟩ :=
      WalkStep.cancel (sysInit 0 1)
    have h2 : WalkStep (⟨initQ 0, [WPC.atCheck], true⟩ : WalkSys)
        ⟨initQ 0, [WPC.exited], true⟩ :=
      WalkStep.checkExit ⟨initQ 0, [WPC.atCheck], true⟩ 0 rfl rfl
    exact WalkReach.tail _ _ (WalkReach.tail _ _ WalkReach.refl h1) h2
  · intro w hw
    rcases List.mem_singleton.mp hw with rfl
    rfl

/-- Witness for the amended C10 theorem: one worker blocked inside `Pop`
after passing its check. -/
theorem walk_empty_roots_blocks_witness :
    ((⟨initQ 0, [WPC.blockedInPop], false⟩ : WalkSys).q = initQ 0) ∧
    ((⟨initQ 0, [WPC.blockedInPop], false⟩ : WalkSys).q.closed = false) ∧
    (∀ (j : Nat), (⟨initQ 0, [WPC.blockedInPop], false⟩ : WalkSys).workers[j]? =
        some WPC.exited →
      (⟨initQ 0, [WPC.blockedInPop], false⟩ : WalkSys).cancelled = true) ∧
    (∀ (i : Nat), (⟨initQ 0, [WPC.blockedInPop], false⟩ : WalkSys).workers[i]? =
        some WPC.blockedInPop →
      ∀ t, WalkStep (⟨initQ 0, [WPC.blockedInPop], false⟩ : WalkSys) t →
        t.workers[i]? = some WPC.blockedInPop) := by
  have h1 : WalkStep (sysInit 0 1) ⟨initQ 0, [WPC.blockedInPop], false⟩ :=
    WalkStep.enterPopBlocked (sysInit 0 1) 0 rfl rfl rfl rfl
  exact walk_empty_roots_blocks 1 ⟨initQ 0, [WPC.blockedInPop], false⟩
    (WalkReach.tail _ _ WalkReach.refl h1)

/- ───────────── size priority queue: ordering and delivery ───────────── -/

/-- A suffix of `A ++ B` is either a suffix of `B`, or all of `B` preceded
by a suffix of `A`. -/
theorem suffix_append_split {α : Type} (A B l : List α)
    (h : l.IsSuffix (A ++ B)) :
    l.IsSuffix B ∨ ∃ A1, A1.IsSuffix A ∧ l = A1 ++ B := by
  obtain ⟨p, hp⟩ := h
  have hl : l = (A ++ B).drop p.length := by
    rw [← hp, List.drop_left]
  by_cases hlen : A.length ≤ p.length
  · left
    rw [hl, show p.length = A.length + (p.length - A.length) by omega,
      List.drop_append]
    exact List.drop_suffix _ _
  · right
    refine ⟨A.drop p.length, List.drop_suffix _ _, ?_⟩
    rw [hl, List.drop_append_of_le_length (by omega)]

/-- Invariant of the priority-queue stage on a smalls-then-larges input:
the emitted, heaped and pending items are a permutation of the input; the
pending input is a suffix of it; and the output is a block of smalls
followed by a block of larges — once any large has been emitted, only
larges remain in the heap and the input. -/
theorem pq_invariant (A B : List HashedFile)
    (hAB : ∀ a ∈ A, ∀ b ∈ B, a.size < b.size)
    (s : PQState) (h : PQReach (pqInit (A ++ B)) s) :
    List.Perm (s.out ++ s.heap ++ s.input) (A ++ B) ∧
    s.input.IsSuffix (A ++ B) ∧
    ∃ u v, s.out = u ++ v ∧ (∀ x ∈ u, x ∈ A) ∧ (∀ x ∈ v, x ∈ B) ∧
      (v ≠ [] → (∀ x ∈ s.heap, x ∈ B) ∧ (∀ x ∈ s.input, x ∈ B)) := by
  have hdisj : ∀ x, x ∈ A → x ∈ B → False := by
    intro x hxa hxb
    exact lt_irrefl _ (hAB x hxa x hxb)
  induction h with
  | refl =>
    refine ⟨by simp [pqInit], by simp [pqInit], [], [], rfl, ?_, ?_, ?_⟩
    · intro x hx
      exact absurd hx (List.not_mem_nil x)
    · intro x hx
      exact absurd hx (List.not_mem_nil x)
    · intro hne
      exact absurd rfl hne
  | tail s t hr hstep ih =>
    obtain ⟨hperm, hsuf, u, v, hout, hu, hv, hcond⟩ := ih
    cases hstep with
    | recv x rest hin =>
      refine ⟨?_, ?_, u, v, hout, hu, hv, ?_⟩
      · show List.Perm (s.out ++ (x :: s.heap) ++ rest) (A ++ B)
        have e1 : s.out ++ (x :: s.heap) ++ rest =
            s.out ++ (x :: (s.heap ++ rest)) := by
          simp [List.append_assoc]
        have e2 : s.out ++ s.heap ++ s.input =
            s.out ++ (s.heap ++ (x :: rest)) := by
          rw [hin, List.append_assoc]
        have hmid : List.Perm (s.heap ++ (x :: rest))
            (x :: (s.heap ++ rest)) := List.perm_middle
        rw [e1]
        have hstep1 : List.Perm (s.out ++ (x :: (s.heap ++ rest)))
            (s.out ++ (s.heap ++ (x :: rest))) :=
          (hmid.symm).append_left s.out
        exact hstep1.trans (e2 ▸ hperm)
      · show rest.IsSuffix (A ++ B)
        exact List.IsSuffix.trans (List.suffix_cons x rest) (hin ▸ hsuf)
      · intro hvne
        obtain ⟨hheap, hinp⟩ := hcond hvne
        have hxB : x ∈ B := hinp x (by rw [hin]; exact List.mem_cons_self x rest)
        refine ⟨?_, ?_⟩
        · intro y hy
          rcases List.mem_cons.mp hy with rfl | hy2
          · exact hxB
          · exact hheap y hy2
        · intro y hy
          exact hinp y (by rw [hin]; exact List.mem_cons_of_mem x hy)
    | deliver m hm hmin =>
      have hmAB : m ∈ A ++ B := by
        have hmem : m ∈ s.out ++ s.heap ++ s.input :=
          List.mem_append.mpr (Or.inl (List.mem_append.mpr (Or.inr hm)))
        exact hperm.mem_iff.mp hmem
      have hpermNew : List.Perm ((s.out ++ [m]) ++ s.heap.erase m ++ s.input)
          (A ++ B) := by
        have e1 : (s.out ++ [m]) ++ s.heap.erase m ++ s.input =
            s.out ++ (m :: s.heap.erase m) ++ s.input := by
          simp [List.append_assoc]
        rw [e1]
        have hh : List.Perm (m :: s.heap.erase m) s.heap :=
          (List.perm_cons_erase hm).symm
        have hstep1 : List.Perm (s.out ++ (m :: s.heap.erase m) ++ s.input)
            (s.out ++ s.heap ++ s.input) :=
          ((List.Perm.refl s.out).append hh).append_right s.input
        exact hstep1.trans hperm
      rcases List.mem_append.mp hmAB with hmA | hmB
      · have hv0 : v = [] := by
          by_contra hvne
          exact hdisj m hmA ((hcond hvne).1 m hm)
        subst hv0
        rw [List.append_nil] at hout
        refine ⟨hpermNew, hsuf, u ++ [m], [], ?_, ?_, ?_, ?_⟩
        · show s.out ++ [m] = (u ++ [m]) ++ []
          rw [List.append_nil, hout]
        · intro x hx
          rcases List.mem_append.mp hx with hx1 | hx2
          · exact hu x hx1
          · rcases List.mem_singleton.mp hx2 with rfl
            exact hmA
        · intro x hx
          exact absurd hx (List.not_mem_nil x)
        · intro hne
          exact absurd rfl hne
      · refine ⟨hpermNew, hsuf, u, v ++ [m], ?_, hu, ?_, ?_⟩
        · show s.out ++ [m] = u ++ (v ++ [m])
          rw [hout, List.append_assoc]
        · intro x hx
          rcases List.mem_append.mp hx with hx1 | hx2
          · exact hv x hx1
          · rcases List.mem_singleton.mp hx2 with rfl
            exact hmB
        · intro _
          by_cases hvne : v = []
          · have hheapB : ∀ y ∈ s.heap, y ∈ B := by
              intro y hy
              have hyAB : y ∈ A ++ B := by
                have hymem : y ∈ s.out ++ s.heap ++ s.input :=
                  List.mem_append.mpr
                    (Or.inl (List.mem_append.mpr (Or.inr hy)))
                exact hperm.mem_iff.mp hymem
              rcases List.mem_append.mp hyAB with hyA | hyB
              · exfalso
                have h1 := hAB y hyA m hmB
                have h2 := hmin y hy
                omega
              · exact hyB
            refine ⟨?_, ?_⟩
            · intro y hy
              exact hheapB y (List.mem_of_mem_erase hy)
            · intro y hy
              rcases suffix_append_split A B s.input hsuf with hsufB | hfull
              · exact hsufB.subset hy
              · exfalso
                obtain ⟨A1, hA1, hinp⟩ := hfull
                have hcount := hperm.count_eq m
                rw [List.count_append, List.count_append,
                  List.count_append] at hcount
                have hmA0 : List.count m A = 0 :=
                  List.count_eq_zero.mpr (fun hmA2 => hdisj m hmA2 hmB)
                have hmB1 : 0 < List.count m B := List.count_pos_iff.mpr hmB
                have hmH : 0 < List.count m s.heap := List.count_pos_iff.mpr hm
                have hinpc : List.count m s.input =
                    List.count m A1 + List.count m B := by
                  rw [hinp, List.count_append]
                omega
          · obtain ⟨hheap, hinp⟩ := hcond hvne
            exact ⟨fun y hy => hheap y (List.mem_of_mem_erase hy), hinp⟩

/-- C8: when N small items all enter the priority queue's input before M
strictly larger items, then in every execution the output is a block of
small items followed by a block of large items (no small item ever follows
the first large item), and when the stage finishes — input exhausted and
heap drained — all N+M items have been delivered. -/
theorem priority_queue_small_before_large (A B : List HashedFile)
    (hAB : ∀ a ∈ A, ∀ b ∈ B, a.size < b.size)
    (s : PQState) (h : PQReach (pqInit (A ++ B)) s) :
    (∃ u v, s.out = u ++ v ∧ (∀ x ∈ u, x ∈ A) ∧ (∀ x ∈ v, x ∈ B)) ∧
    (s.input = [] → s.heap = [] → List.Perm s.out (A ++ B)) := by
  obtain ⟨hperm, _, u, v, hout, hu, hv, _⟩ := pq_invariant A B hAB s h
  refine ⟨⟨u, v, hout, hu, hv⟩, ?_⟩
  intro hin hh
  rw [hin, hh] at hperm
  simpa using hperm

/-- Witness for C8: one 42-byte item ahead of one 100000-byte item,
received, heap-sorted and fully delivered. -/
theorem priority_queue_small_before_large_witness :
    (∀ a ∈ ([smallSample] : List HashedFile),
      ∀ b ∈ ([largeSample] : List HashedFile), a.size < b.size) ∧
    ((∃ u v, (⟨[], [], [smallSample, largeSample]⟩ : PQState).out = u ++ v ∧
        (∀ x ∈ u, x ∈ ([smallSample] : List HashedFile)) ∧
        (∀ x ∈ v, x ∈ ([largeSample] : List HashedFile))) ∧
      ((⟨[], [], [smallSample, largeSample]⟩ : PQState).input = [] →
        (⟨[], [], [smallSample, largeSample]⟩ : PQState).heap = [] →
        List.Perm (⟨[], [], [smallSample, largeSample]⟩ : PQState).out
          ([smallSample] ++ [largeSample]))) := by
  have h1 : PQStep (pqInit ([smallSample] ++ [largeSample]))
      ⟨[largeSample], [smallSample], []⟩ :=
    PQStep.recv _ smallSample [largeSample] rfl
  have h2 : PQStep (⟨[largeSample], [smallSample], []⟩ : PQState)
      ⟨[], [largeSample, smallSample], []⟩ :=
    PQStep.recv _ largeSample [] rfl
  have herase1 : ([largeSample, smallSample] : List HashedFile).erase
      smallSample = [largeSample] := by decide
  have herase2 : ([largeSample] : List HashedFile).erase largeSample = [] :=
    by decide
  have h3 : PQStep (⟨[], [largeSample, smallSample], []⟩ : PQState)
      ⟨[], [largeSample], [smallSample]⟩ := by
    have hd := PQStep.deliver (⟨[], [largeSample, smallSample], []⟩ : PQState)
      smallSample (by decide) (by decide)
    rw [show (⟨[], [largeSample, smallSample], []⟩ : PQState).heap.erase
        smallSample = [largeSample] from herase1] at hd
    exact hd
  have h4 : PQStep (⟨[], [largeSample], [smallSample]⟩ : PQState)
      ⟨[], [], [smallSample, largeSample]⟩ := by
    have hd := PQStep.deliver (⟨[], [largeSample], [smallSample]⟩ : PQState)
      largeSample (by decide) (by decide)
    rw [show (⟨[], [largeSample], [smallSample]⟩ : PQState).heap.erase
        largeSample = [] from herase2] at hd
    exact hd
  have hreach : PQReach (pqInit ([smallSample] ++ [largeSample]))
      ⟨[], [], [smallSample, largeSample]⟩ :=
    PQReach.tail _ _ (PQReach.tail _ _ (PQReach.tail _ _
      (PQReach.tail _ _ PQReach.refl h1) h2) h3) h4
  exact ⟨by decide,
    priority_queue_small_before_large [smallSample] [largeSample] (by decide)
      ⟨[], [], [smallSample, largeSample]⟩ hreach⟩
